import Mathlib

/-!
Verification of the miratope-rs faceting engine specification.

This file shallowly embeds the parts of `src/miratope-core/src/conc/faceting.rs`
that the specification's claims are about:

* the rank-2 base case of `faceting_subdim` (dyad faceting, snub detection),
* the rank guard of `Concrete::faceting`,
* the `binary` search helper,
* `label_mixed_compounds` and `filter_mixed_compounds`,
* the compound-splitting of accepted facet lists, and
* the facet-combination search (queue seeding, ridge-multiplicity update with
  early break, validity classification, and the two extension branches).

Machine integers are modelled as `Nat` (the Rust code only ever uses small
nonnegative counters; the only signed arithmetic, inside `binary`, is modelled
with `Int`).  Vector indexing `v[i]` is modelled with `List.getD`/`List.set`;
in the Rust code all such indices are in range.
-/

namespace Miratope

/-- A `(hyperplane orbit, facet)` index pair, ordered lexicographically like
Rust's derived `Ord` on `(usize, usize)`. -/
abbrev Pair := Nat × Nat

/-- Lexicographic comparison of index pairs, `(a, b) <= (c, d)` in the sense of
Rust's derived `Ord` on tuples. -/
def pairLeB (p q : Pair) : Bool :=
  p.1 < q.1 || (p.1 == q.1 && p.2 ≤ q.2)

/-- Strict lexicographic comparison of index pairs. -/
def pairLtB (p q : Pair) : Bool :=
  p.1 < q.1 || (p.1 == q.1 && p.2 < q.2)

/-- Insert into a sorted list, used to model `sort_unstable` on `Vec<(usize,usize)>`. -/
def insPair (p : Pair) : List Pair → List Pair
  | [] => [p]
  | q :: l => if pairLeB p q then p :: q :: l else q :: insPair p l

/-- Model of `Vec::<(usize,usize)>::sort_unstable` (insertion sort; the result is
the unique sorted permutation, so the sorting algorithm itself is irrelevant). -/
def sortPairs : List Pair → List Pair
  | [] => []
  | p :: l => insPair p (sortPairs l)

/-- An element of a rank: its subelement and superelement index lists
(`Element { subs, sups }` in `abs`). -/
structure Element where
  subs : List Nat
  sups : List Nat
deriving DecidableEq, Repr

/-- A rank structure: one element list per rank, from the nullitope up
(the `Ranks` type of the source). -/
abbrev RanksT := List (List Element)

/-- Modelled from the spec: the rank structure of `Abstract::dyad()`, whose
definition lives in the `abs` module (not under `src/`).  Spec section 3: rank
-1 has exactly one element with no subs, rank 0 elements have exactly one sub
pointing to the nullitope, and the dyad's single edge has the two vertices as
subs. -/
def dyadRanks : RanksT :=
  [[⟨[], []⟩],
   [⟨[0], []⟩, ⟨[0], []⟩],
   [⟨[0, 1], []⟩]]

/-- The quintuple returned by `faceting_subdim`: facetings (rank structure plus
facet-type list), hyperplane-orbit counts, possible ridges, the compound map
(association list standing for the `HashMap<usize,(usize,usize)>`), and the
fissary set. -/
structure SubdimResult where
  facetings : List (RanksT × List Pair)
  counts : List Nat
  ridges : List (List RanksT)
  compounds : List (Nat × (Nat × Nat))
  fissary : List Nat
deriving DecidableEq, Repr

/-- The all-empty result returned for more than 2 points at rank 2
(faceting.rs lines 260-264). -/
def emptySubdimResult : SubdimResult :=
  { facetings := [], counts := [], ridges := [], compounds := [], fissary := [] }

/-- The snub detection of the rank-2 base case of `faceting_subdim`
(faceting.rs lines 269-276): `snub` starts `true` and is cleared as soon as
some row of the vertex map carries vertex 0 to vertex 1. -/
def dyadSnub (vertex_map : List (List Nat)) : Bool :=
  !(vertex_map.any (fun row => row.getD 0 0 == 1))

/-- The ridge payload returned in the snub branch (faceting.rs lines 282-301):
two hyperplane orbits, each holding the one-point ridge of the corresponding
endpoint. -/
def snubRidges : List (List RanksT) :=
  [[[[], [⟨[0], []⟩], [⟨[0], []⟩]]],
   [[[], [⟨[0], []⟩], [⟨[1], []⟩]]]]

/-- The ridge payload returned in the non-snub branch (faceting.rs lines 310-320). -/
def nonSnubRidges : List (List RanksT) :=
  [[[[], [⟨[0], []⟩], [⟨[0], []⟩]]]]

/-- The result of the snub branch of the rank-2 base case: one faceting (the
dyad) spread over two hyperplane orbits `(0,0)` and `(1,0)`, each counted once
(faceting.rs lines 278-305). -/
def snubResult : SubdimResult :=
  { facetings := [(dyadRanks, [(0, 0), (1, 0)])],
    counts := [1, 1],
    ridges := snubRidges,
    compounds := [],
    fissary := [] }

/-- The result of the non-snub branch of the rank-2 base case: one faceting
(the dyad) on a single hyperplane orbit `(0,0)` counted twice
(faceting.rs lines 306-324). -/
def nonSnubResult : SubdimResult :=
  { facetings := [(dyadRanks, [(0, 0)])],
    counts := [2],
    ridges := nonSnubRidges,
    compounds := [],
    fissary := [] }

/-- The `rank == 2` early path of `faceting_subdim` (faceting.rs lines
258-325): more than 2 points yields the all-empty result, otherwise the single
dyad faceting, classified snub or non-snub by `dyadSnub`. -/
def faceting_subdim_rank2 (total_vert_count : Nat) (vertex_map : List (List Nat)) :
    SubdimResult :=
  if total_vert_count > 2 then emptySubdimResult
  else if dyadSnub vertex_map then snubResult
  else nonSnubResult

/-- The rank guard of `Concrete::faceting` (faceting.rs lines 1101-1104): a
polytope whose ranked rank is below 4 (i.e. mathematical rank below 3) returns
an empty output vector at once; otherwise the rest of the function (abstracted
here as the continuation `rest`) runs. -/
def faceting_rank_guard {α : Type} (rank : Nat) (rest : Unit → List α) : List α :=
  if rank < 4 then [] else rest ()

/-- Claim C3: for `faceting_subdim` at rank 2 with exactly 2 points, if no row
of the vertex map carries vertex 0 to vertex 1 the single dyad faceting is
returned classified snub with hyperplane-orbit counts `[1, 1]` (two orbits,
each counted once, facet list `[(0,0),(1,0)]`); if some row does carry 0 to 1
it is classified non-snub with counts `[2]` (one orbit counted twice, facet
list `[(0,0)]`). -/
theorem c3_rank2_base_case (vertex_map : List (List Nat)) :
    ((∀ row ∈ vertex_map, row.getD 0 0 ≠ 1) →
      faceting_subdim_rank2 2 vertex_map = snubResult ∧
      snubResult.counts = [1, 1] ∧
      snubResult.facetings = [(dyadRanks, [(0, 0), (1, 0)])]) ∧
    ((∃ row ∈ vertex_map, row.getD 0 0 = 1) →
      faceting_subdim_rank2 2 vertex_map = nonSnubResult ∧
      nonSnubResult.counts = [2] ∧
      nonSnubResult.facetings = [(dyadRanks, [(0, 0)])]) := by
  constructor
  · intro h
    refine ⟨?_, rfl, rfl⟩
    have hsnub : dyadSnub vertex_map = true := by
      simp only [dyadSnub, Bool.not_eq_true', List.any_eq_false]
      intro row hrow
      simpa using h row hrow
    simp [faceting_subdim_rank2, hsnub]
  · rintro ⟨row, hrow, h01⟩
    refine ⟨?_, rfl, rfl⟩
    have hsnub : dyadSnub vertex_map = false := by
      simp only [dyadSnub, Bool.not_eq_false', List.any_eq_true]
      exact ⟨row, hrow, by simpa using h01⟩
    simp [faceting_subdim_rank2, hsnub]

/-- Witness for C3: with the identity-only table `[[0,1]]` no row carries 0 to
1 and the snub result with counts `[1,1]` is produced; with the swap table
`[[0,1],[1,0]]` the non-snub result with counts `[2]` is produced. -/
theorem c3_rank2_base_case_witness :
    faceting_subdim_rank2 2 [[0, 1]] = snubResult ∧
    faceting_subdim_rank2 2 [[0, 1], [1, 0]] = nonSnubResult := by
  constructor
  · exact ((c3_rank2_base_case [[0, 1]]).1 (by decide)).1
  · exact ((c3_rank2_base_case [[0, 1], [1, 0]]).2 ⟨[1, 0], by decide⟩).1

/-- Counterexample to claim C4: faceting the dyad with the identity-only
symmetry table `[[0,1]]` does NOT produce the claimed non-snub result (one
hyperplane orbit of multiplicity 2, counts `[2]`); the identity row carries
vertex 0 to vertex 0, so the snub flag survives and the counts are `[1, 1]`. -/
theorem c4_identity_dyad_counterexample :
    (faceting_subdim_rank2 2 [[0, 1]]).counts = [1, 1] ∧
    (faceting_subdim_rank2 2 [[0, 1]]).counts ≠ [2] ∧
    faceting_subdim_rank2 2 [[0, 1]] ≠ nonSnubResult := by
  refine ⟨by decide, by decide, by decide⟩

/-- Claim C4 (amended): faceting a dyad of 2 vertices with the identity-only
symmetry table `[[0,1]]` yields exactly one faceting, the dyad itself, counted
as snub: two hyperplane orbits each of multiplicity 1 (counts `[1,1]`, facet
list `[(0,0),(1,0)]`). -/
theorem c4_identity_dyad_snub :
    faceting_subdim_rank2 2 [[0, 1]] = snubResult ∧
    (faceting_subdim_rank2 2 [[0, 1]]).facetings.length = 1 ∧
    (faceting_subdim_rank2 2 [[0, 1]]).counts = [1, 1] := by
  refine ⟨by decide, by decide, by decide⟩

/-- Claim C9: unsupported requests return an explicit empty result: faceting a
polytope of ranked rank below 4 (mathematical rank below 3) returns the empty
vector no matter what the rest of the computation would do (no search is
performed), and `faceting_subdim` at rank 2 with more than 2 points returns the
all-empty result (no facetings, no hyperplane-orbit counts, no ridges). -/
theorem c9_unsupported_requests {α : Type} (rank : Nat) (rest rest' : Unit → List α)
    (n : Nat) (vertex_map : List (List Nat)) :
    (rank < 4 →
      faceting_rank_guard rank rest = [] ∧
      faceting_rank_guard rank rest = faceting_rank_guard rank rest') ∧
    (n > 2 →
      faceting_subdim_rank2 n vertex_map = emptySubdimResult ∧
      (faceting_subdim_rank2 n vertex_map).facetings = [] ∧
      (faceting_subdim_rank2 n vertex_map).counts = [] ∧
      (faceting_subdim_rank2 n vertex_map).ridges = []) := by
  constructor
  · intro h
    simp [faceting_rank_guard, h]
  · intro h
    simp [faceting_subdim_rank2, h, emptySubdimResult]

/-- Witness for C9: rank 3 (a polygon, mathematical rank 2) with an arbitrary
continuation returns empty, and 3 points at rank 2 return the all-empty
result. -/
theorem c9_unsupported_requests_witness :
    faceting_rank_guard 3 (fun _ => [(0 : Nat)]) = [] ∧
    faceting_subdim_rank2 3 [[0, 1, 2]] = emptySubdimResult := by
  constructor
  · exact ((c9_unsupported_requests 3 (fun _ => [(0 : Nat)]) (fun _ => [])
      3 [[0, 1, 2]]).1 (by decide)).1
  · exact ((c9_unsupported_requests 3 (fun _ => [(0 : Nat)]) (fun _ => [])
      3 [[0, 1, 2]]).2 (by decide)).1

/-- The loop of the modified binary search `binary` (faceting.rs lines
97-112): signed bounds, `lo` starting at -1 and `hi` at `vec.len()`; the
midpoint test `vec[c].0 > min` moves `hi` down, otherwise `lo` up. -/
def binaryAux (vec : List Pair) (mn : Nat) (lo hi : Int) : Int :=
  if _h : 1 < hi - lo then
    if mn < (vec.getD ((lo + hi) / 2).toNat (0, 0)).1 then
      binaryAux vec mn lo ((lo + hi) / 2)
    else
      binaryAux vec mn ((lo + hi) / 2) hi
  else hi
termination_by (hi - lo).toNat
decreasing_by
  · have hc : lo < (lo + hi) / 2 := by
      have : lo + 1 ≤ (lo + hi) / 2 := by
        rw [Int.le_ediv_iff_mul_le (by norm_num)]
        omega
      omega
    have h0 : (0 : Int) < hi - lo := by omega
    rw [Int.toNat_lt_toNat (by omega)]
    omega
  · have hc : (lo + hi) / 2 < hi := by
      rw [Int.ediv_lt_iff_lt_mul (by norm_num)]
      omega
    have hc2 : lo < (lo + hi) / 2 := by
      have : lo + 1 ≤ (lo + hi) / 2 := by
        rw [Int.le_ediv_iff_mul_le (by norm_num)]
        omega
      omega
    rw [Int.toNat_lt_toNat (by omega)]
    omega

/-- The modified binary search of faceting.rs lines 96-112: on a list sorted
by first component it returns the index of the first element whose first
component is greater than `mn`. -/
def binary (vec : List Pair) (mn : Nat) : Nat :=
  (binaryAux vec mn (-1) vec.length).toNat

/-- Postcondition of the binary-search loop: on a list whose first components
are monotone, the result splits the list into a first-component-at-most-`mn`
part and a strictly-greater part. -/
theorem binaryAux_post (vec : List Pair) (mn : Nat)
    (hsort : ∀ i j : Nat, i ≤ j → j < vec.length →
      (vec.getD i (0, 0)).1 ≤ (vec.getD j (0, 0)).1) :
    ∀ (n : Nat) (lo hi : Int), (hi - lo).toNat ≤ n → -1 ≤ lo → lo < hi →
    hi ≤ vec.length →
    (lo = -1 ∨ (lo.toNat < vec.length ∧ (vec.getD lo.toNat (0, 0)).1 ≤ mn)) →
    (hi = vec.length ∨ (hi.toNat < vec.length ∧ mn < (vec.getD hi.toNat (0, 0)).1)) →
    ∃ r : Nat, binaryAux vec mn lo hi = (r : Int) ∧ r ≤ vec.length ∧
      (∀ i : Nat, i < r → (vec.getD i (0, 0)).1 ≤ mn) ∧
      (∀ i : Nat, r ≤ i → i < vec.length → mn < (vec.getD i (0, 0)).1) := by
  intro n
  induction n with
  | zero =>
    intro lo hi hcnt hlo hlt _ _ _
    omega
  | succ n ih =>
    intro lo hi hcnt hlo hlt hhi hinvlo hinvhi
    by_cases hgap : 1 < hi - lo
    · have hcl : lo < (lo + hi) / 2 := by
        have : lo + 1 ≤ (lo + hi) / 2 := by
          rw [Int.le_ediv_iff_mul_le (by norm_num)]
          omega
        omega
      have hch : (lo + hi) / 2 < hi := by
        rw [Int.ediv_lt_iff_lt_mul (by norm_num)]
        omega
      have hc0 : (0 : Int) ≤ (lo + hi) / 2 := by omega
      have hclen : ((lo + hi) / 2).toNat < vec.length := by omega
      rw [binaryAux]
      simp only [hgap, dite_true]
      by_cases hmid : mn < (vec.getD ((lo + hi) / 2).toNat (0, 0)).1
      · simp only [hmid, if_true]
        exact ih lo ((lo + hi) / 2) (by omega) hlo hcl (by omega) hinvlo
          (Or.inr ⟨hclen, hmid⟩)
      · simp only [hmid, if_false]
        exact ih ((lo + hi) / 2) hi (by omega) (by omega) hch hhi
          (Or.inr ⟨hclen, by omega⟩) hinvhi
    · have hhi1 : hi = lo + 1 := by omega
      have hh0 : (0 : Int) ≤ hi := by omega
      refine ⟨hi.toNat, ?_, by omega, ?_, ?_⟩
      · rw [binaryAux]
        simp [hgap, Int.toNat_of_nonneg hh0]
      · intro i hir
        rcases hinvlo with h | ⟨hlen, hle⟩
        · omega
        · exact le_trans (hsort i lo.toNat (by omega) hlen) hle
      · intro i hri hilen
        rcases hinvhi with h | ⟨hlen, hgt⟩
        · omega
        · exact lt_of_lt_of_le hgt (hsort hi.toNat i (by omega) hilen)

/-- `binary` splits a first-component-sorted list at the boundary between
entries with first component at most `mn` and entries strictly above `mn`. -/
theorem binary_split (vec : List Pair) (mn : Nat)
    (hsort : ∀ i j : Nat, i ≤ j → j < vec.length →
      (vec.getD i (0, 0)).1 ≤ (vec.getD j (0, 0)).1) :
    binary vec mn ≤ vec.length ∧
    (∀ i : Nat, i < binary vec mn → (vec.getD i (0, 0)).1 ≤ mn) ∧
    (∀ i : Nat, binary vec mn ≤ i → i < vec.length →
      mn < (vec.getD i (0, 0)).1) := by
  obtain ⟨r, hr, hrlen, hpre, hsuf⟩ :=
    binaryAux_post vec mn hsort (vec.length + 1) (-1) vec.length (by omega)
      (by omega) (by omega) (by omega) (Or.inl rfl) (Or.inl rfl)
  have : binary vec mn = r := by
    rw [binary, hr, Int.toNat_natCast]
  rw [this]
  exact ⟨hrlen, hpre, hsuf⟩

/-- Dropping a boundary-split number of elements from a list equals filtering
the list with the strict-threshold predicate. -/
theorem drop_eq_filter_of_split (mn : Nat) :
    ∀ (l : List Pair) (r : Nat), r ≤ l.length →
    (∀ i : Nat, i < r → (l.getD i (0, 0)).1 ≤ mn) →
    (∀ i : Nat, r ≤ i → i < l.length → mn < (l.getD i (0, 0)).1) →
    l.drop r = l.filter (fun p => decide (mn < p.1)) := by
  intro l
  induction l with
  | nil => intro r _ _ _; simp
  | cons p t ih =>
    intro r hr hpre hsuf
    match r with
    | 0 =>
      have hall : ∀ a ∈ p :: t, decide (mn < a.1) = true := by
        intro a ha
        obtain ⟨i, hi, hget⟩ := List.mem_iff_getElem.mp ha
        have := hsuf i (by omega) hi
        rw [List.getD_eq_getElem _ _ hi, hget] at this
        simpa using this
      rw [List.drop_zero, List.filter_eq_self.mpr hall]
    | r' + 1 =>
      have hp : decide (mn < p.1) = false := by
        have := hpre 0 (by omega)
        simpa using this
      simp only [List.drop_succ_cons, List.filter_cons, hp, if_false]
      refine ih r' (by simpa using hr) ?_ ?_
      · intro i hi
        have := hpre (i + 1) (by omega)
        simpa using this
      · intro i hri hilen
        have := hsuf (i + 1) (by omega) (by simpa using Nat.succ_lt_succ hilen)
        simpa using this

theorem drop_binary_eq_filter (l : List Pair) (mn : Nat)
    (hs : List.Chain' (fun a b : Pair => a.1 ≤ b.1) l) :
    l.drop (binary l mn) = l.filter (fun p => decide (mn < p.1)) := by
  haveI : IsTrans Pair (fun a b : Pair => a.1 ≤ b.1) :=
    ⟨fun _ _ _ hab hbc => Nat.le_trans hab hbc⟩
  have hpw := List.chain'_iff_pairwise.mp hs
  have hsort : ∀ i j : Nat, i ≤ j → j < l.length →
      (l.getD i (0, 0)).1 ≤ (l.getD j (0, 0)).1 := by
    intro i j hij hj
    rcases Nat.lt_or_ge i j with hlt | hge
    · have := List.pairwise_iff_get.mp hpw ⟨i, by omega⟩ ⟨j, hj⟩ hlt
      rw [List.getD_eq_getElem _ _ (by omega : i < l.length),
        List.getD_eq_getElem _ _ hj]
      simpa [List.get_eq_getElem] using this
    · have : i = j := by omega
      subst this
      exact le_refl _
  obtain ⟨hrlen, hpre, hsuf⟩ := binary_split l mn hsort
  exact drop_eq_filter_of_split mn l (binary l mn) hrlen hpre hsuf

theorem pairLeB_iff (p q : Pair) :
    pairLeB p q = true ↔ p.1 < q.1 ∨ (p.1 = q.1 ∧ p.2 ≤ q.2) := by
  simp [pairLeB]

theorem pairLeB_total (p q : Pair) : pairLeB p q = true ∨ pairLeB q p = true := by
  rw [pairLeB_iff, pairLeB_iff]
  omega

theorem pairLeB_trans {p q r : Pair} (h1 : pairLeB p q = true)
    (h2 : pairLeB q r = true) : pairLeB p r = true := by
  rw [pairLeB_iff] at h1 h2 ⊢
  omega

theorem pairLeB_antisymm {p q : Pair} (h1 : pairLeB p q = true)
    (h2 : pairLeB q p = true) : p = q := by
  rw [pairLeB_iff] at h1 h2
  have h3 : p.1 = q.1 := by omega
  have h4 : p.2 = q.2 := by omega
  exact Prod.ext h3 h4

instance : IsTrans Pair (fun a b : Pair => pairLeB a b = true) :=
  ⟨fun _ _ _ => pairLeB_trans⟩

instance : IsAntisymm Pair (fun a b : Pair => pairLeB a b = true) :=
  ⟨fun _ _ => pairLeB_antisymm⟩

theorem insPair_perm (p : Pair) (l : List Pair) : (insPair p l).Perm (p :: l) := by
  induction l with
  | nil => simp [insPair]
  | cons q t ih =>
    rw [insPair]
    by_cases h : pairLeB p q = true
    · simp [h]
    · simp only [h, if_false]
      exact (List.Perm.cons q ih).trans (List.Perm.swap p q t)

theorem insPair_sorted (p : Pair) (l : List Pair)
    (hl : List.Pairwise (fun a b : Pair => pairLeB a b = true) l) :
    List.Pairwise (fun a b : Pair => pairLeB a b = true) (insPair p l) := by
  induction l with
  | nil => simp [insPair]
  | cons q t ih =>
    rw [insPair]
    by_cases h : pairLeB p q = true
    · simp only [h, if_true]
      refine List.Pairwise.cons ?_ hl
      intro b hb
      rcases List.mem_cons.mp hb with rfl | hbt
      · exact h
      · exact pairLeB_trans h ((List.pairwise_cons.mp hl).1 b hbt)
    · simp only [h, if_false]
      have hqp : pairLeB q p = true := (pairLeB_total p q).resolve_left h
      obtain ⟨hq, ht⟩ := List.pairwise_cons.mp hl
      refine List.Pairwise.cons ?_ (ih ht)
      intro b hb
      have := (insPair_perm p t).mem_iff.mp hb
      rcases List.mem_cons.mp this with rfl | hbt
      · exact hqp
      · exact hq b hbt

theorem sortPairs_perm (l : List Pair) : (sortPairs l).Perm l := by
  induction l with
  | nil => simp [sortPairs]
  | cons p t ih =>
    rw [sortPairs]
    exact ((insPair_perm p (sortPairs t)).trans (List.Perm.cons p ih))

theorem sortPairs_sorted (l : List Pair) :
    List.Pairwise (fun a b : Pair => pairLeB a b = true) (sortPairs l) := by
  induction l with
  | nil => simp [sortPairs]
  | cons p t ih => exact insPair_sorted p (sortPairs t) ih

theorem sortPairs_eq_of_sorted (l : List Pair)
    (hl : List.Pairwise (fun a b : Pair => pairLeB a b = true) l) :
    sortPairs l = l :=
  List.eq_of_perm_of_sorted (sortPairs_perm l) (sortPairs_sorted l) hl

/-- Sorted lists of pairs that are permutations of each other are equal. -/
theorem sortPairs_eq_of_perm {l1 l2 : List Pair} (h : l1.Perm l2) :
    sortPairs l1 = sortPairs l2 :=
  List.eq_of_perm_of_sorted ((sortPairs_perm l1).trans (h.trans (sortPairs_perm l2).symm))
    (sortPairs_sorted l1) (sortPairs_sorted l2)

/-- One hyperplane orbit's compound map, an association list modelling
`compound_facets[hp] : HashMap<usize, (usize, usize)>` (a compound facet index
mapped to its two component indices). -/
abbrev CompoundMap := List (Nat × (Nat × Nat))

/-- The component-expansion loop of the compound-splitting step (faceting.rs
lines 1952-1961): a FIFO queue of facet indices; an index recorded in the
compound map is replaced by its two components, any other index is emitted.
`fuel` bounds the number of queue pops (the Rust loop relies on the compound
map being acyclic and simply runs until the queue empties). -/
def splitBFS (m : CompoundMap) : Nat → List Nat → Option (List Nat)
  | _, [] => some []
  | 0, _ :: _ => none
  | fuel + 1, next :: rest =>
    match m.lookup next with
    | some (c1, c2) => splitBFS m fuel (rest ++ [c1, c2])
    | none => (splitBFS m fuel rest).map (next :: ·)

/-- Splitting one `(hyperplane, facet)` entry of an accepted combination into
its indivisible components on the same hyperplane (faceting.rs lines
1950-1964). -/
def splitEntry (cs : List CompoundMap) (fuel : Nat) (p : Pair) : Option (List Pair) :=
  (splitBFS (cs.getD p.1 []) fuel [p.2]).map (fun l => l.map (fun c => (p.1, c)))

/-- Sequencing of `Option`-valued expansion over a facet list (the `for` loop
of faceting.rs lines 1950-1965). -/
def optTraverse {α β : Type} (g : α → Option β) : List α → Option (List β)
  | [] => some []
  | x :: l =>
    match g x, optTraverse g l with
    | some y, some ys => some (y :: ys)
    | _, _ => none

/-- The full compound-splitting of an accepted facet list before emission
(faceting.rs lines 1947-1966): every entry is recursively expanded through the
compound map and the concatenation is re-sorted (`new_facets.sort_unstable()`). -/
def splitFacets (cs : List CompoundMap) (fuel : Nat) (facets : List Pair) :
    Option (List Pair) :=
  (optTraverse (splitEntry cs fuel) facets).map (fun ls => sortPairs ls.flatten)

theorem optTraverse_mem {α β : Type} (g : α → Option β) :
    ∀ (l : List α) (res : List β), optTraverse g l = some res →
    ∀ y ∈ res, ∃ x ∈ l, g x = some y := by
  intro l
  induction l with
  | nil =>
    intro res h y hy
    simp [optTraverse] at h
    subst h
    simp at hy
  | cons x t ih =>
    intro res h y hy
    rw [optTraverse] at h
    match hx : g x, ht : optTraverse g t with
    | some z, some zs =>
      rw [hx, ht] at h
      simp at h
      subst h
      rcases List.mem_cons.mp hy with rfl | hyt
      · exact ⟨x, List.mem_cons_self x t, hx⟩
      · obtain ⟨x', hx', hgx'⟩ := ih zs ht y hyt
        exact ⟨x', List.mem_cons_of_mem x hx', hgx'⟩
    | some z, none => rw [hx, ht] at h; simp at h
    | none, _ => rw [hx] at h; simp at h

theorem optTraverse_of_forall {α β : Type} (g : α → Option β) (h : α → β) :
    ∀ (l : List α), (∀ x ∈ l, g x = some (h x)) →
    optTraverse g l = some (l.map h) := by
  intro l
  induction l with
  | nil => intro _; simp [optTraverse]
  | cons x t ih =>
    intro hall
    rw [optTraverse, hall x (List.mem_cons_self x t), ih
      (fun x' hx' => hall x' (List.mem_cons_of_mem x hx'))]
    simp

/-- Every index emitted by the expansion queue is not a key of the compound
map. -/
theorem splitBFS_not_key (m : CompoundMap) :
    ∀ (fuel : Nat) (q out : List Nat), splitBFS m fuel q = some out →
    ∀ c ∈ out, m.lookup c = none := by
  intro fuel
  induction fuel with
  | zero =>
    intro q out h c hc
    match q with
    | [] => simp [splitBFS] at h; subst h; simp at hc
    | x :: r => simp [splitBFS] at h
  | succ n ih =>
    intro q out h c hc
    match q with
    | [] => simp [splitBFS] at h; subst h; simp at hc
    | x :: r =>
      rw [splitBFS] at h
      match hx : m.lookup x with
      | some (c1, c2) =>
        rw [hx] at h
        exact ih (r ++ [c1, c2]) out h c hc
      | none =>
        rw [hx] at h
        match hr : splitBFS m n r with
        | some out' =>
          rw [hr] at h
          simp at h
          subst h
          rcases List.mem_cons.mp hc with rfl | hcr
          · exact hx
          · exact ih r out' hr c hcr
        | none => rw [hr] at h; simp at h

/-- On a queue of non-key indices the expansion queue is the identity (given
at least one unit of fuel per element). -/
theorem splitBFS_of_not_key (m : CompoundMap) :
    ∀ (q : List Nat), (∀ c ∈ q, m.lookup c = none) →
    ∀ fuel : Nat, q.length ≤ fuel → splitBFS m fuel q = some q := by
  intro q
  induction q with
  | nil => intro _ fuel _; match fuel with | 0 => rfl | n + 1 => rfl
  | cons x r ih =>
    intro hall fuel hfuel
    match fuel with
    | 0 => simp at hfuel
    | n + 1 =>
      rw [splitBFS, hall x (List.mem_cons_self x r),
        ih (fun c hc => hall c (List.mem_cons_of_mem x hc)) n (by simpa using hfuel)]
      rfl

theorem flatten_map_singleton {α : Type} (l : List α) :
    (l.map (fun x => [x])).flatten = l := by
  induction l with
  | nil => simp
  | cons x t ih => simp [ih]

/-- Claim C7: compound splitting reaches a fixed point before emission.  If
the splitting of an accepted facet list terminates with result `out`, then no
entry of `out` is a key of its hyperplane's compound map (nothing further to
decompose), `out` is sorted, and re-splitting `out` through the same compound
map returns `out` unchanged. -/
theorem c7_compound_split_fixed_point (cs : List CompoundMap) (fuel : Nat)
    (facets out : List Pair) (h : splitFacets cs fuel facets = some out) :
    (∀ p ∈ out, (cs.getD p.1 []).lookup p.2 = none) ∧
    List.Pairwise (fun a b : Pair => pairLeB a b = true) out ∧
    splitFacets cs fuel out = some out := by
  rw [splitFacets] at h
  match htr : optTraverse (splitEntry cs fuel) facets with
  | none => rw [htr] at h; simp at h
  | some ls =>
    rw [htr] at h
    simp only [Option.map_some', Option.some_inj] at h
    have hmem : ∀ p ∈ out, (cs.getD p.1 []).lookup p.2 = none := by
      intro p hp
      have hp2 : p ∈ ls.flatten := by
        rw [← h] at hp
        exact (sortPairs_perm ls.flatten).subset hp
      obtain ⟨l', hl', hpl'⟩ := List.mem_flatten.mp hp2
      obtain ⟨x, _, hgx⟩ := optTraverse_mem (splitEntry cs fuel) facets ls htr l' hl'
      rw [splitEntry] at hgx
      match hb : splitBFS (cs.getD x.1 []) fuel [x.2] with
      | none => rw [hb] at hgx; simp at hgx
      | some comps =>
        rw [hb] at hgx
        simp only [Option.map_some', Option.some_inj] at hgx
        rw [← hgx] at hpl'
        obtain ⟨c, hcc, hcp⟩ := List.mem_map.mp hpl'
        rw [← hcp]
        exact splitBFS_not_key (cs.getD x.1 []) fuel [x.2] comps hb c hcc
    have hsorted : List.Pairwise (fun a b : Pair => pairLeB a b = true) out := by
      rw [← h]
      exact sortPairs_sorted ls.flatten
    refine ⟨hmem, hsorted, ?_⟩
    cases out with
    | nil => simp [splitFacets, optTraverse, sortPairs]
    | cons p rest =>
      have hfuel : 1 ≤ fuel := by
        match fuel, htr, h with
        | n + 1, _, _ => omega
        | 0, htr, h =>
          exfalso
          cases facets with
          | nil =>
            simp only [optTraverse, Option.some_inj] at htr
            rw [← htr] at h
            simp [sortPairs] at h
          | cons x t =>
            rw [optTraverse] at htr
            have hx : splitEntry cs 0 x = none := by
              rw [splitEntry]
              rfl
            rw [hx] at htr
            match ht : optTraverse (splitEntry cs 0) t with
            | some _ => rw [ht] at htr; simp at htr
            | none => rw [ht] at htr; simp at htr
      have hentry : ∀ q ∈ p :: rest, splitEntry cs fuel q = some [q] := by
        intro q hq
        rw [splitEntry, splitBFS_of_not_key (cs.getD q.1 []) [q.2]
          (by intro c hc; rcases List.mem_singleton.mp hc with rfl; exact hmem q hq)
          fuel (by simpa using hfuel)]
        simp
      rw [splitFacets, optTraverse_of_forall (splitEntry cs fuel) (fun q => [q])
        (p :: rest) hentry]
      simp only [Option.map_some', Option.some_inj, flatten_map_singleton]
      exact sortPairs_eq_of_sorted _ hsorted

/-- Witness for C7: a compound map on hyperplane 0 sending facet 2 to the
union of facets 0 and 1; the accepted list `[(0,2),(1,0)]` splits to
`[(0,0),(0,1),(1,0)]`, which contains no compound key, is sorted, and
re-splits to itself. -/
theorem c7_compound_split_fixed_point_witness :
    (∀ p ∈ [((0 : Nat), (0 : Nat)), (0, 1), (1, 0)],
      (([[(2, (0, 1))]] : List CompoundMap).getD p.1 []).lookup p.2 = none) ∧
    List.Pairwise (fun a b : Pair => pairLeB a b = true) [(0, 0), (0, 1), (1, 0)] ∧
    splitFacets [[(2, (0, 1))]] 4 [(0, 0), (0, 1), (1, 0)] =
      some [(0, 0), (0, 1), (1, 0)] :=
  c7_compound_split_fixed_point [[(2, (0, 1))]] 4 [(0, 2), (1, 0)]
    [(0, 0), (0, 1), (1, 0)] (by decide)

theorem pairLtB_iff (p q : Pair) :
    pairLtB p q = true ↔ p.1 < q.1 ∨ (p.1 = q.1 ∧ p.2 < q.2) := by
  simp [pairLtB]

theorem pairLtB_trans {p q r : Pair} (h1 : pairLtB p q = true)
    (h2 : pairLtB q r = true) : pairLtB p r = true := by
  rw [pairLtB_iff] at h1 h2 ⊢
  omega

theorem pairLtB_asymm {p q : Pair} (h1 : pairLtB p q = true) :
    pairLtB q p = false := by
  rw [pairLtB_iff] at h1
  rw [← Bool.not_eq_true, pairLtB_iff]
  omega

theorem pair_eq_of_not_lt {p q : Pair} (h1 : pairLtB p q = false)
    (h2 : pairLtB q p = false) : p = q := by
  rw [← Bool.not_eq_true, pairLtB_iff] at h1 h2
  exact Prod.ext (by omega) (by omega)

theorem pairLtB_of_le_of_lt {p q r : Pair} (h1 : pairLeB p q = true)
    (h2 : pairLtB q r = true) : pairLtB p r = true := by
  rw [pairLeB_iff] at h1
  rw [pairLtB_iff] at h2 ⊢
  omega

theorem pairLtB_of_lt_of_le {p q r : Pair} (h1 : pairLtB p q = true)
    (h2 : pairLeB q r = true) : pairLtB p r = true := by
  rw [pairLtB_iff] at h1
  rw [pairLeB_iff] at h2
  rw [pairLtB_iff]
  omega

theorem pairLeB_of_lt {p q : Pair} (h : pairLtB p q = true) : pairLeB p q = true := by
  rw [pairLtB_iff] at h
  rw [pairLeB_iff]
  omega

theorem pairLtB_not_of_le {p q : Pair} (h : pairLeB p q = true) :
    pairLtB q p = false := by
  rw [pairLeB_iff] at h
  rw [← Bool.not_eq_true, pairLtB_iff]
  omega

/-- Lexicographic comparison on lists of pairs, modelling Rust's derived `Ord`
on `Vec<(usize, usize)>` (a strict prefix compares less). -/
def listLeB : List Pair → List Pair → Bool
  | [], _ => true
  | _ :: _, [] => false
  | x :: xs, y :: ys =>
    if pairLtB x y then true
    else if pairLtB y x then false
    else listLeB xs ys

theorem pairLtB_irrefl (p : Pair) : pairLtB p p = false := by
  rw [← Bool.not_eq_true, pairLtB_iff]
  omega

theorem pairLeB_refl (p : Pair) : pairLeB p p = true := by
  rw [pairLeB_iff]
  omega

theorem pair_trichotomy (p q : Pair) :
    pairLtB p q = true ∨ p = q ∨ pairLtB q p = true := by
  rw [pairLtB_iff, pairLtB_iff]
  rcases Nat.lt_trichotomy p.1 q.1 with h | h | h
  · left; omega
  · rcases Nat.lt_trichotomy p.2 q.2 with h2 | h2 | h2
    · left; omega
    · right; left; exact Prod.ext h h2
    · right; right; omega
  · right; right; omega

theorem listLeB_trans : ∀ {l1 l2 l3 : List Pair}, listLeB l1 l2 = true →
    listLeB l2 l3 = true → listLeB l1 l3 = true := by
  intro l1
  induction l1 with
  | nil => intro l2 l3 _ _; rfl
  | cons x xs ih =>
    intro l2 l3 h12 h23
    match l2, l3 with
    | [], _ => simp [listLeB] at h12
    | _ :: _, [] => simp [listLeB] at h23
    | y :: ys, z :: zs =>
      rw [listLeB] at h12 h23 ⊢
      rcases pair_trichotomy x y with hxy | rfl | hyx
      · rcases pair_trichotomy y z with hyz | rfl | hzy
        · simp [pairLtB_trans hxy hyz]
        · simp [hxy]
        · simp [pairLtB_asymm hzy, hzy] at h23
      · simp only [pairLtB_irrefl, if_false] at h12
        rcases pair_trichotomy x z with hxz | rfl | hzx
        · simp [hxz]
        · simp only [pairLtB_irrefl, if_false] at h23 ⊢
          exact ih h12 h23
        · simp [pairLtB_asymm hzx, hzx] at h23
      · simp [pairLtB_asymm hyx, hyx] at h12

instance : IsTrans (List Pair) (fun a b : List Pair => listLeB a b = true) :=
  ⟨fun _ _ _ => listLeB_trans⟩

/-- Lexicographic order compares first elements first. -/
theorem listLeB_head {x y : Pair} {xs ys : List Pair}
    (h : listLeB (x :: xs) (y :: ys) = true) : pairLeB x y = true := by
  rw [listLeB] at h
  rcases pair_trichotomy x y with hxy | rfl | hyx
  · exact pairLeB_of_lt hxy
  · exact pairLeB_refl x
  · simp [pairLtB_asymm hyx, hyx] at h

/-- The two-pointer subset test shared by `label_mixed_compounds` and
`filter_mixed_compounds` (faceting.rs lines 126-136 and 178-189): the pointer
`i` walks `b` while iterating over `a`; `vec[b][i] > f` skips `f`,
`vec[b][i] < f` fails, a match advances `i`, and reaching the end of `b`
succeeds at once. -/
def subsetTP : List Pair → List Pair → Bool
  | _, [] => false
  | [], _ :: _ => false
  | b0 :: brest, a0 :: arest =>
    if pairLtB a0 b0 then subsetTP (b0 :: brest) arest
    else if pairLtB b0 a0 then false
    else if brest.isEmpty then true
    else subsetTP brest arest

/-- The complement computation of `label_mixed_compounds` (faceting.rs lines
137-150): the pointer `j` walks `b` while iterating over `a`; an element of
`a` is pushed when `b` is exhausted or `vec[b][j] > g`, otherwise `j`
advances. -/
def complementTP : List Pair → List Pair → List Pair
  | _, [] => []
  | [], g :: grest => g :: complementTP [] grest
  | b0 :: brest, g :: grest =>
    if pairLtB g b0 then g :: complementTP (b0 :: brest) grest
    else complementTP brest grest

/-- Linear scan of an indexed list for the first entry equal to `target`. -/
def findEq : List (Nat × List Pair) → List Pair → Option Nat
  | [], _ => none
  | (i, l) :: rest, target => if l = target then some i else findEq rest target

/-- The complement search of `label_mixed_compounds` (faceting.rs lines
152-157): the first index at or past `start` whose list equals `target`. -/
def findFrom (vec : List (List Pair)) (start : Nat) (target : List Pair) :
    Option Nat :=
  findEq (vec.enum.drop start) target

/-- The inner loop of `label_mixed_compounds` for one base list `aList`
(faceting.rs lines 119-161), scanning candidate subsets in index order.
`Except.error ()` models the `panic!("could not find complement")`;
`.ok none` means no subset was found (including the early `break` when a
candidate's first element exceeds `aList`'s first element); `.ok (some (b,c))`
records the compound decomposition. -/
def lmcScan (vec : List (List Pair)) (aList : List Pair) :
    List (Nat × List Pair) → Except Unit (Option (Nat × Nat))
  | [] => .ok none
  | (bIdx, bList) :: rest =>
    if aList.length ≤ bList.length then lmcScan vec aList rest
    else if pairLtB (aList.headD (0, 0)) (bList.headD (0, 0)) then .ok none
    else if subsetTP bList aList then
      match findFrom vec (bIdx + 1) (complementTP bList aList) with
      | some c => .ok (some (bIdx, c))
      | none => .error ()
    else lmcScan vec aList rest

/-- The outer loop of `label_mixed_compounds` (faceting.rs lines 115-164),
collecting the compound map as an association list. -/
def lmcGo (vec : List (List Pair)) :
    List (Nat × List Pair) → Except Unit (List (Nat × (Nat × Nat)))
  | [] => .ok []
  | (aIdx, aList) :: rest =>
    match lmcScan vec aList vec.enum with
    | .error e => .error e
    | .ok none => lmcGo vec rest
    | .ok (some bc) => (lmcGo vec rest).map (fun m => (aIdx, bc) :: m)

/-- `label_mixed_compounds` (faceting.rs lines 114-164): for each accepted
faceting, the first strictly smaller accepted faceting that passes the
two-pointer subset test is located, its complement searched for among the
later facetings, and the pair recorded; a missing complement is the
`panic!("could not find complement")`, modelled as `Except.error ()`. -/
def label_mixed_compounds (vec : List (List Pair)) :
    Except Unit (List (Nat × (Nat × Nat))) :=
  lmcGo vec vec.enum

/-- The inner loop of `filter_mixed_compounds` for one base list (faceting.rs
lines 170-191): `true` when some strictly smaller candidate passes the subset
test (the base is then dropped from the output); no complement is searched. -/
def fmcScan (aList : List Pair) : List (List Pair) → Bool
  | [] => false
  | bList :: rest =>
    if aList.length ≤ bList.length then fmcScan aList rest
    else if pairLtB (aList.headD (0, 0)) (bList.headD (0, 0)) then false
    else if subsetTP bList aList then true
    else fmcScan aList rest

/-- `filter_mixed_compounds` (faceting.rs lines 166-195): the indices of the
accepted facetings for which no strictly smaller accepted faceting passes the
subset test. -/
def filter_mixed_compounds (vec : List (List Pair)) : List Nat :=
  (vec.enum.filter (fun ia => !(fmcScan ia.2 vec))).map Prod.fst

theorem subsetTP_nil (a : List Pair) : subsetTP [] a = false := by
  cases a <;> rfl

theorem subsetTP_nil_right (b : List Pair) : subsetTP b [] = false := by
  cases b <;> rfl

/-- In a strictly sorted list the head is a lower bound. -/
theorem sorted_head_le {a0 : Pair} {ar : List Pair}
    (h : List.Pairwise (fun a b : Pair => pairLtB a b = true) (a0 :: ar)) :
    ∀ x ∈ a0 :: ar, pairLeB a0 x = true := by
  intro x hx
  rcases List.mem_cons.mp hx with rfl | hxr
  · exact pairLeB_refl x
  · exact pairLeB_of_lt ((List.pairwise_cons.mp h).1 x hxr)

/-- In a strictly sorted list the head does not recur in the tail. -/
theorem head_not_mem_tail {a0 : Pair} {ar : List Pair}
    (h : List.Pairwise (fun a b : Pair => pairLtB a b = true) (a0 :: ar)) :
    a0 ∉ ar := by
  intro hmem
  have := (List.pairwise_cons.mp h).1 a0 hmem
  rw [pairLtB_irrefl] at this
  exact Bool.false_ne_true this

/-- The two-pointer subset test is exactly the sublist relation on strictly
sorted lists (with the empty candidate rejected). -/
theorem subsetTP_iff_sublist :
    ∀ (aList bList : List Pair),
    List.Pairwise (fun a b : Pair => pairLtB a b = true) aList →
    List.Pairwise (fun a b : Pair => pairLtB a b = true) bList →
    (subsetTP bList aList = true ↔ bList ≠ [] ∧ bList.Sublist aList) := by
  intro aList
  induction aList with
  | nil =>
    intro bList _ _
    rw [subsetTP_nil_right]
    constructor
    · intro h
      exact absurd h (by simp)
    · rintro ⟨hne, hsub⟩
      exact absurd (List.sublist_nil.mp hsub) hne
  | cons a0 ar ih =>
    intro bList ha hb
    cases bList with
    | nil =>
      rw [subsetTP_nil]
      simp
    | cons b0 br =>
      rw [subsetTP]
      rcases pair_trichotomy a0 b0 with hab | rfl | hba
      · rw [if_pos hab]
        have hne : b0 ≠ a0 := by
          intro he
          subst he
          rw [pairLtB_irrefl] at hab
          exact Bool.false_ne_true hab
        rw [ih (b0 :: br) (List.pairwise_cons.mp ha).2 hb]
        constructor
        · rintro ⟨h1, h2⟩
          exact ⟨h1, h2.cons a0⟩
        · rintro ⟨h1, h2⟩
          refine ⟨h1, ?_⟩
          rcases List.sublist_cons_iff.mp h2 with h3 | ⟨r, hr, _⟩
          · exact h3
          · exact absurd (congrArg (fun l => List.headD l (0, 0)) hr) (by simpa using hne)
      · rw [if_neg (by simp [pairLtB_irrefl]), if_neg (by simp [pairLtB_irrefl])]
        cases br with
        | nil =>
          simp only [List.isEmpty_nil, if_true]
          constructor
          · intro _
            exact ⟨by simp, (List.nil_sublist ar).cons_cons a0⟩
          · intro _
            trivial
        | cons b1 brt =>
          simp only [List.isEmpty_cons, Bool.false_eq_true, if_false]
          rw [ih (b1 :: brt) (List.pairwise_cons.mp ha).2 (List.pairwise_cons.mp hb).2]
          constructor
          · rintro ⟨_, h2⟩
            exact ⟨by simp, List.cons_sublist_cons.mpr h2⟩
          · rintro ⟨_, h2⟩
            exact ⟨by simp, List.cons_sublist_cons.mp h2⟩
      · rw [if_neg (by simp [pairLtB_asymm hba]), if_pos hba]
        constructor
        · intro h
          exact absurd h (by simp)
        · rintro ⟨_, hsub⟩
          have hmem : b0 ∈ a0 :: ar := hsub.subset (List.mem_cons_self b0 br)
          have := sorted_head_le ha b0 hmem
          rw [pairLtB_not_of_le this] at hba
          exact hba

/-- On a strictly sorted base list the complement computation is the
set-difference with a verified subset. -/
theorem complementTP_eq_filter :
    ∀ (aList bList : List Pair),
    List.Pairwise (fun a b : Pair => pairLtB a b = true) aList →
    bList.Sublist aList →
    complementTP bList aList = aList.filter (fun g => decide (g ∉ bList)) := by
  intro aList
  induction aList with
  | nil =>
    intro bList _ hsub
    rw [List.sublist_nil.mp hsub]
    rfl
  | cons a0 ar ih =>
    intro bList ha hsub
    cases bList with
    | nil =>
      rw [complementTP]
      simp only [List.filter_cons]
      rw [ih [] (List.pairwise_cons.mp ha).2 (List.nil_sublist ar)]
      simp
    | cons b0 br =>
      have hbsorted : List.Pairwise (fun a b : Pair => pairLtB a b = true) (b0 :: br) :=
        List.Pairwise.sublist hsub ha
      rcases pair_trichotomy a0 b0 with hab | rfl | hba
      · have hbsub : (b0 :: br).Sublist ar := by
          rcases List.sublist_cons_iff.mp hsub with h3 | ⟨r, hr, _⟩
          · exact h3
          · exfalso
            have : b0 = a0 := by
              have := congrArg (fun l => List.headD l (0, 0)) hr
              simpa using this
            subst this
            rw [pairLtB_irrefl] at hab
            exact Bool.false_ne_true hab
        rw [complementTP, if_pos hab, ih (b0 :: br) (List.pairwise_cons.mp ha).2 hbsub]
        have ha0nb : a0 ∉ b0 :: br := by
          intro hmem
          have := sorted_head_le hbsorted a0 hmem
          have h2 := pairLtB_not_of_le this
          rw [h2] at hab
          exact Bool.false_ne_true hab
        simp only [List.filter_cons]
        rw [decide_eq_true ha0nb]
        simp
      · have hbsub : br.Sublist ar := by
          rcases List.sublist_cons_iff.mp hsub with h3 | ⟨r, hr, hrs⟩
          · exfalso
            have hmem : a0 ∈ ar := h3.subset (List.mem_cons_self a0 br)
            exact head_not_mem_tail ha hmem
          · have : br = r := by
              have := congrArg List.tail hr
              simpa using this
            rw [this]
            exact hrs
        rw [complementTP, if_neg (by simp [pairLtB_irrefl]),
          ih br (List.pairwise_cons.mp ha).2 hbsub]
        have hfe : ∀ g ∈ ar, decide (g ∉ br) = decide (g ∉ a0 :: br) := by
          intro g hg
          have hga : g ≠ a0 := by
            intro he
            subst he
            exact head_not_mem_tail ha hg
          simp [List.mem_cons, hga]
        simp only [List.filter_cons]
        rw [decide_eq_false (by simp : ¬ (a0 ∉ a0 :: br))]
        simp only [Bool.false_eq_true, if_false]
        exact List.filter_congr hfe
      · exfalso
        have hmem : b0 ∈ a0 :: ar := hsub.subset (List.mem_cons_self b0 br)
        have := sorted_head_le ha b0 hmem
        rw [pairLtB_not_of_le this] at hba
        exact Bool.false_ne_true hba

/-- The conditions actually tested by the inner loops on a candidate subset:
strictly smaller length, no first-element overshoot, and the two-pointer
subset test. -/
def QualCode (aList bList : List Pair) : Prop :=
  bList.length < aList.length ∧
  pairLtB (aList.headD (0, 0)) (bList.headD (0, 0)) = false ∧
  subsetTP bList aList = true

instance (aList bList : List Pair) : Decidable (QualCode aList bList) := by
  unfold QualCode
  infer_instance

theorem pairLtB_bot (p : Pair) : pairLtB p (0, 0) = false := by
  rw [← Bool.not_eq_true, pairLtB_iff]
  omega

/-- A chain under the lexicographic order bounds all later elements by the
head. -/
theorem chain_le_of_mem {b : List Pair} {rest : List (List Pair)}
    (h : List.Chain' (fun x y : List Pair => listLeB x y = true) (b :: rest)) :
    ∀ b' ∈ rest, listLeB b b' = true := by
  haveI : IsTrans (List Pair) (fun a b : List Pair => listLeB a b = true) :=
    ⟨fun _ _ _ => listLeB_trans⟩
  exact (List.pairwise_cons.mp (List.chain'_iff_pairwise.mp h)).1

/-- Candidate subsets rejected by the early break cannot qualify later: once
some candidate's first element exceeds the base's first element, the same
holds for every candidate after it in the sorted scan. -/
theorem fmcScan_eq_true_iff (aList : List Pair) :
    ∀ (bs : List (List Pair)),
    List.Chain' (fun x y : List Pair => listLeB x y = true) bs →
    (fmcScan aList bs = true ↔ ∃ bList ∈ bs, QualCode aList bList) := by
  intro bs
  induction bs with
  | nil =>
    intro _
    rw [fmcScan]
    simp
  | cons b rest ih =>
    intro hchain
    rw [fmcScan]
    by_cases hlen : aList.length ≤ b.length
    · rw [if_pos hlen, ih hchain.tail]
      constructor
      · rintro ⟨bl, hbl, hq⟩
        exact ⟨bl, List.mem_cons_of_mem b hbl, hq⟩
      · rintro ⟨bl, hbl, hq⟩
        rcases List.mem_cons.mp hbl with rfl | hblr
        · exact absurd hq.1 (by omega)
        · exact ⟨bl, hblr, hq⟩
    · rw [if_neg hlen]
      by_cases hbrk : pairLtB (aList.headD (0, 0)) (b.headD (0, 0)) = true
      · rw [if_pos hbrk]
        constructor
        · intro h
          exact absurd h (by simp)
        · rintro ⟨bl, hbl, hq⟩
          exfalso
          rcases List.mem_cons.mp hbl with rfl | hblr
          · rw [hq.2.1] at hbrk
            exact Bool.false_ne_true hbrk
          · have hble : listLeB b bl = true := chain_le_of_mem hchain bl hblr
            have hbne : b ≠ [] := by
              intro he
              subst he
              rw [List.headD_nil, pairLtB_bot] at hbrk
              exact Bool.false_ne_true hbrk
            have hblne : bl ≠ [] := by
              intro he
              subst he
              have h22 := hq.2.2
              rw [subsetTP_nil] at h22
              exact Bool.false_ne_true h22
            match b, bl, hbne, hblne with
            | b0 :: bt, bl0 :: blt, _, _ =>
              have hhead : pairLeB b0 bl0 = true := listLeB_head hble
              have : pairLtB (aList.headD (0, 0)) bl0 = true :=
                pairLtB_of_lt_of_le (by simpa using hbrk) hhead
              have h2 := hq.2.1
              simp only [List.headD_cons] at h2
              rw [h2] at this
              exact Bool.false_ne_true this
      · rw [if_neg hbrk]
        by_cases hsub : subsetTP b aList = true
        · rw [if_pos hsub]
          constructor
          · intro _
            exact ⟨b, List.mem_cons_self b rest,
              by omega, Bool.not_eq_true _ |>.mp hbrk, hsub⟩
          · intro _
            rfl
        · rw [if_neg hsub, ih hchain.tail]
          constructor
          · rintro ⟨bl, hbl, hq⟩
            exact ⟨bl, List.mem_cons_of_mem b hbl, hq⟩
          · rintro ⟨bl, hbl, hq⟩
            rcases List.mem_cons.mp hbl with rfl | hblr
            · exact absurd hq.2.2 hsub
            · exact ⟨bl, hblr, hq⟩

theorem findEq_some_mem : ∀ (bs : List (Nat × List Pair)) (t : List Pair) (c : Nat),
    findEq bs t = some c → (c, t) ∈ bs := by
  intro bs
  induction bs with
  | nil => intro t c h; simp [findEq] at h
  | cons p rest ih =>
    intro t c h
    match p with
    | (i, l) =>
      rw [findEq] at h
      by_cases hl : l = t
      · rw [if_pos hl] at h
        simp only [Option.some_inj] at h
        rw [← h, hl]
        exact List.mem_cons_self _ _
      · rw [if_neg hl] at h
        exact List.mem_cons_of_mem _ (ih t c h)

theorem findEq_none_iff : ∀ (bs : List (Nat × List Pair)) (t : List Pair),
    (findEq bs t = none ↔ ∀ p ∈ bs, p.2 ≠ t) := by
  intro bs
  induction bs with
  | nil => intro t; simp [findEq]
  | cons p rest ih =>
    intro t
    match p with
    | (i, l) =>
      rw [findEq]
      by_cases hl : l = t
      · rw [if_pos hl]
        simp only [Option.some_ne_none, false_iff]
        intro hall
        exact hall (i, l) (List.mem_cons_self _ _) hl
      · rw [if_neg hl]
        rw [ih t]
        constructor
        · intro hall q hq
          rcases List.mem_cons.mp hq with rfl | hqr
          · exact hl
          · exact hall q hqr
        · intro hall q hq
          exact hall q (List.mem_cons_of_mem _ hq)

theorem findFrom_some (vec : List (List Pair)) (start : Nat) (t : List Pair)
    (c : Nat) (h : findFrom vec start t = some c) :
    start ≤ c ∧ vec[c]? = some t := by
  have hmem := findEq_some_mem _ t c h
  obtain ⟨j, hj⟩ := List.mem_iff_getElem?.mp hmem
  rw [List.getElem?_drop, List.getElem?_enum] at hj
  match hv : vec[start + j]? with
  | none => rw [hv] at hj; simp at hj
  | some l =>
    rw [hv] at hj
    simp only [Option.map_some', Option.some_inj, Prod.mk.injEq] at hj
    obtain ⟨hc, hl⟩ := hj
    constructor
    · omega
    · rw [hc] at hv
      rw [hv, hl]

theorem findFrom_complete (vec : List (List Pair)) (start : Nat) (t : List Pair)
    (c : Nat) (hc : start ≤ c) (hv : vec[c]? = some t) :
    findFrom vec start t ≠ none := by
  rw [findFrom]
  intro h
  have := (findEq_none_iff _ t).mp h (c, t) ?_
  · exact this rfl
  · rw [List.mem_iff_getElem?]
    refine ⟨c - start, ?_⟩
    rw [List.getElem?_drop, List.getElem?_enum]
    have : start + (c - start) = c := by omega
    rw [this, hv]
    rfl

theorem pairLtB_ne {p q : Pair} (h : pairLtB p q = true) : p ≠ q := by
  intro he
  subst he
  rw [pairLtB_irrefl] at h
  exact Bool.false_ne_true h

theorem listLeB_refl (l : List Pair) : listLeB l l = true := by
  induction l with
  | nil => rfl
  | cons x xs ih =>
    rw [listLeB, if_neg (by simp [pairLtB_irrefl]), if_neg (by simp [pairLtB_irrefl])]
    exact ih

/-- Once a candidate's first element exceeds the base's first element (the
early `break` of the subset scans), no candidate at or after it in the sorted
scan order can pass the qualifying tests. -/
theorem no_qual_after_break {aList bList : List Pair} {bIdx : Nat}
    {rest : List (Nat × List Pair)}
    (hchain : List.Chain' (fun x y : Nat × List Pair => listLeB x.2 y.2 = true)
      ((bIdx, bList) :: rest))
    (hbrk : pairLtB (aList.headD (0, 0)) (bList.headD (0, 0)) = true) :
    ∀ p ∈ (bIdx, bList) :: rest, ¬ QualCode aList p.2 := by
  haveI : IsTrans (Nat × List Pair)
      (fun x y : Nat × List Pair => listLeB x.2 y.2 = true) :=
    ⟨fun _ _ _ => listLeB_trans⟩
  intro p hp hq
  have hbne : bList ≠ [] := by
    intro he
    subst he
    rw [List.headD_nil, pairLtB_bot] at hbrk
    exact Bool.false_ne_true hbrk
  have hplne : p.2 ≠ [] := by
    intro he
    have h22 := hq.2.2
    rw [he, subsetTP_nil] at h22
    exact Bool.false_ne_true h22
  have hple : listLeB bList p.2 = true := by
    rcases List.mem_cons.mp hp with rfl | hpr
    · exact listLeB_refl bList
    · exact (List.pairwise_cons.mp (List.chain'_iff_pairwise.mp hchain)).1 p hpr
  obtain ⟨b0, bt, rfl⟩ : ∃ b0 bt, bList = b0 :: bt := by
    cases bList with
    | nil => exact absurd rfl hbne
    | cons b0 bt => exact ⟨b0, bt, rfl⟩
  obtain ⟨p0, pt, hp2⟩ : ∃ p0 pt, p.2 = p0 :: pt := by
    cases hpl : p.2 with
    | nil => exact absurd hpl hplne
    | cons p0 pt => exact ⟨p0, pt, rfl⟩
  rw [hp2] at hple
  have hhead : pairLeB b0 p0 = true := listLeB_head hple
  have hlt : pairLtB (aList.headD (0, 0)) p0 = true :=
    pairLtB_of_lt_of_le (by simpa using hbrk) hhead
  have h21 := hq.2.1
  rw [hp2] at h21
  simp only [List.headD_cons] at h21
  rw [h21] at hlt
  exact Bool.false_ne_true hlt

/-- Soundness of the inner scan of `label_mixed_compounds`: a recorded pair
`(b, c)` names a scanned candidate passing the qualifying tests whose
complement is the list at index `c > b`. -/
theorem lmcScan_ok_some (vec : List (List Pair)) (aList : List Pair) :
    ∀ (bs : List (Nat × List Pair)) (b c : Nat),
    lmcScan vec aList bs = .ok (some (b, c)) →
    ∃ bList, (b, bList) ∈ bs ∧ QualCode aList bList ∧
      b + 1 ≤ c ∧ vec[c]? = some (complementTP bList aList) := by
  intro bs
  induction bs with
  | nil => intro b c h; simp [lmcScan] at h
  | cons p rest ih =>
    intro b c h
    obtain ⟨bIdx, bList⟩ := p
    rw [lmcScan] at h
    by_cases hlen : aList.length ≤ bList.length
    · rw [if_pos hlen] at h
      obtain ⟨bl, hbl, hrest⟩ := ih b c h
      exact ⟨bl, List.mem_cons_of_mem _ hbl, hrest⟩
    · rw [if_neg hlen] at h
      by_cases hbrk : pairLtB (aList.headD (0, 0)) (bList.headD (0, 0)) = true
      · rw [if_pos hbrk] at h
        simp at h
      · rw [if_neg hbrk] at h
        by_cases hsub : subsetTP bList aList = true
        · rw [if_pos hsub] at h
          match hf : findFrom vec (bIdx + 1) (complementTP bList aList) with
          | some c' =>
            rw [hf] at h
            simp only [Except.ok.injEq, Option.some_inj, Prod.mk.injEq] at h
            obtain ⟨h1, h2⟩ := h
            subst h1
            subst h2
            obtain ⟨hc1, hc2⟩ := findFrom_some vec (bIdx + 1) _ c' hf
            exact ⟨bList, List.mem_cons_self _ _,
              ⟨by omega, Bool.not_eq_true _ |>.mp hbrk, hsub⟩, hc1, hc2⟩
          | none => rw [hf] at h; simp at h
        · rw [if_neg hsub] at h
          obtain ⟨bl, hbl, hrest⟩ := ih b c h
          exact ⟨bl, List.mem_cons_of_mem _ hbl, hrest⟩

/-- The inner scan of `label_mixed_compounds` reports no subset exactly when
no scanned candidate qualifies (on a lexicographically sorted scan list, so
the early break loses nothing). -/
theorem lmcScan_ok_none_iff (vec : List (List Pair)) (aList : List Pair) :
    ∀ (bs : List (Nat × List Pair)),
    List.Chain' (fun x y : Nat × List Pair => listLeB x.2 y.2 = true) bs →
    (lmcScan vec aList bs = .ok none ↔ ¬ ∃ p ∈ bs, QualCode aList p.2) := by
  intro bs
  induction bs with
  | nil =>
    intro _
    simp [lmcScan]
  | cons p rest ih =>
    intro hchain
    obtain ⟨bIdx, bList⟩ := p
    rw [lmcScan]
    by_cases hlen : aList.length ≤ bList.length
    · rw [if_pos hlen, ih hchain.tail]
      constructor
      · intro hno ⟨q, hq, hqq⟩
        rcases List.mem_cons.mp hq with rfl | hqr
        · exact absurd hqq.1 (by simp; omega)
        · exact hno ⟨q, hqr, hqq⟩
      · intro hno ⟨q, hq, hqq⟩
        exact hno ⟨q, List.mem_cons_of_mem _ hq, hqq⟩
    · rw [if_neg hlen]
      by_cases hbrk : pairLtB (aList.headD (0, 0)) (bList.headD (0, 0)) = true
      · rw [if_pos hbrk]
        constructor
        · intro _ ⟨q, hq, hqq⟩
          exact no_qual_after_break hchain hbrk q hq hqq
        · intro _
          rfl
      · rw [if_neg hbrk]
        by_cases hsub : subsetTP bList aList = true
        · rw [if_pos hsub]
          have hqual : QualCode aList bList :=
            ⟨by omega, Bool.not_eq_true _ |>.mp hbrk, hsub⟩
          match hf : findFrom vec (bIdx + 1) (complementTP bList aList) with
          | some c' =>
            constructor
            · intro h
              simp at h
            · intro hno
              exact absurd ⟨(bIdx, bList), List.mem_cons_self _ _, hqual⟩ hno
          | none =>
            constructor
            · intro h
              simp at h
            · intro hno
              exact absurd ⟨(bIdx, bList), List.mem_cons_self _ _, hqual⟩ hno
        · rw [if_neg hsub, ih hchain.tail]
          constructor
          · intro hno ⟨q, hq, hqq⟩
            rcases List.mem_cons.mp hq with rfl | hqr
            · exact absurd hqq.2.2 hsub
            · exact hno ⟨q, hqr, hqq⟩
          · intro hno ⟨q, hq, hqq⟩
            exact hno ⟨q, List.mem_cons_of_mem _ hq, hqq⟩

/-- If some scanned candidate qualifies but every qualifying candidate's
complement is absent from the accepted lists, the scan panics. -/
theorem lmcScan_error_of (vec : List (List Pair)) (aList : List Pair) :
    ∀ (bs : List (Nat × List Pair)),
    List.Chain' (fun x y : Nat × List Pair => listLeB x.2 y.2 = true) bs →
    (∃ p ∈ bs, QualCode aList p.2) →
    (∀ p ∈ bs, QualCode aList p.2 →
      ∀ i : Nat, vec[i]? ≠ some (complementTP p.2 aList)) →
    lmcScan vec aList bs = .error () := by
  intro bs
  induction bs with
  | nil =>
    intro _ hex _
    simp at hex
  | cons p rest ih =>
    intro hchain hex hnone
    obtain ⟨bIdx, bList⟩ := p
    rw [lmcScan]
    by_cases hlen : aList.length ≤ bList.length
    · rw [if_pos hlen]
      refine ih hchain.tail ?_ ?_
      · obtain ⟨q, hq, hqq⟩ := hex
        rcases List.mem_cons.mp hq with rfl | hqr
        · exact absurd hqq.1 (by simp; omega)
        · exact ⟨q, hqr, hqq⟩
      · intro q hq hqq
        exact hnone q (List.mem_cons_of_mem _ hq) hqq
    · rw [if_neg hlen]
      by_cases hbrk : pairLtB (aList.headD (0, 0)) (bList.headD (0, 0)) = true
      · exfalso
        obtain ⟨q, hq, hqq⟩ := hex
        exact no_qual_after_break hchain hbrk q hq hqq
      · rw [if_neg hbrk]
        by_cases hsub : subsetTP bList aList = true
        · rw [if_pos hsub]
          have hqual : QualCode aList bList :=
            ⟨by omega, Bool.not_eq_true _ |>.mp hbrk, hsub⟩
          match hf : findFrom vec (bIdx + 1) (complementTP bList aList) with
          | some c' =>
            exfalso
            obtain ⟨_, hc2⟩ := findFrom_some vec (bIdx + 1) _ c' hf
            exact hnone (bIdx, bList) (List.mem_cons_self _ _) hqual c' hc2
          | none => rfl
        · rw [if_neg hsub]
          refine ih hchain.tail ?_ ?_
          · obtain ⟨q, hq, hqq⟩ := hex
            rcases List.mem_cons.mp hq with rfl | hqr
            · exact absurd hqq.2.2 hsub
            · exact ⟨q, hqr, hqq⟩
          · intro q hq hqq
            exact hnone q (List.mem_cons_of_mem _ hq) hqq

/-- Characterization of the outer loop of `label_mixed_compounds` on a
successful run: recorded entries come from successful scans, no scan panicked,
and successful scans are recorded. -/
theorem lmcGo_ok (vec : List (List Pair)) :
    ∀ (idxs : List (Nat × List Pair)) (m : List (Nat × (Nat × Nat))),
    lmcGo vec idxs = .ok m →
    (∀ e ∈ m, ∃ aList, (e.1, aList) ∈ idxs ∧
      lmcScan vec aList vec.enum = .ok (some e.2)) ∧
    (∀ aIdx aList, (aIdx, aList) ∈ idxs →
      lmcScan vec aList vec.enum ≠ .error () ∧
      (∀ bc, lmcScan vec aList vec.enum = .ok (some bc) → (aIdx, bc) ∈ m)) := by
  intro idxs
  induction idxs with
  | nil =>
    intro m h
    simp only [lmcGo, Except.ok.injEq] at h
    subst h
    constructor
    · intro e he
      simp at he
    · intro aIdx aList h
      simp at h
  | cons p rest ih =>
    intro m h
    obtain ⟨aIdx, aList⟩ := p
    rw [lmcGo] at h
    match hscan : lmcScan vec aList vec.enum with
    | .error e =>
      rw [hscan] at h
      simp at h
    | .ok none =>
      rw [hscan] at h
      obtain ⟨ih1, ih2⟩ := ih m h
      constructor
      · intro e he
        obtain ⟨al, hal, hs⟩ := ih1 e he
        exact ⟨al, List.mem_cons_of_mem _ hal, hs⟩
      · intro aIdx' aList' hmem
        rcases List.mem_cons.mp hmem with heq | hmr
        · rw [Prod.mk.injEq] at heq
          obtain ⟨rfl, rfl⟩ := heq
          refine ⟨by rw [hscan]; simp, ?_⟩
          intro bc hbc
          rw [hscan] at hbc
          simp at hbc
        · exact ih2 aIdx' aList' hmr
    | .ok (some bc0) =>
      rw [hscan] at h
      match hrest : lmcGo vec rest with
      | .error e => rw [hrest] at h; simp [Except.map] at h
      | .ok m' =>
        rw [hrest] at h
        simp only [Except.map, Except.ok.injEq] at h
        subst h
        obtain ⟨ih1, ih2⟩ := ih m' hrest
        constructor
        · intro e he
          rcases List.mem_cons.mp he with rfl | her
          · exact ⟨aList, List.mem_cons_self _ _, hscan⟩
          · obtain ⟨al, hal, hs⟩ := ih1 e her
            exact ⟨al, List.mem_cons_of_mem _ hal, hs⟩
        · intro aIdx' aList' hmem
          rcases List.mem_cons.mp hmem with heq | hmr
          · rw [Prod.mk.injEq] at heq
            obtain ⟨rfl, rfl⟩ := heq
            refine ⟨by rw [hscan]; simp, ?_⟩
            intro bc hbc
            rw [hscan] at hbc
            simp only [Except.ok.injEq, Option.some_inj] at hbc
            subst hbc
            exact List.mem_cons_self _ _
          · obtain ⟨hne, himp⟩ := ih2 aIdx' aList' hmr
            exact ⟨hne, fun bc hbc => List.mem_cons_of_mem _ (himp bc hbc)⟩

theorem mem_of_getElem?_list {vec : List (List Pair)} {i : Nat} {l : List Pair}
    (h : vec[i]? = some l) : l ∈ vec := by
  obtain ⟨hlt, heq⟩ := List.getElem?_eq_some.mp h
  rw [← heq]
  exact List.getElem_mem hlt

/-- The enumeration of a lexicographically sorted list is sorted in the same
way on its second components. -/
theorem enum_chain {vec : List (List Pair)}
    (hchain : List.Chain' (fun x y : List Pair => listLeB x y = true) vec) :
    List.Chain' (fun x y : Nat × List Pair => listLeB x.2 y.2 = true) vec.enum := by
  have h1 : List.Chain' (fun x y : List Pair => listLeB x y = true)
      (vec.enum.map Prod.snd) := by
    rw [List.enum_map_snd]
    exact hchain
  exact (List.chain'_map Prod.snd).mp h1

/-- On strictly sorted nonempty lists the code-level qualifying tests are
exactly the claim's conditions: a proper subset of the base containing the
base's first facet. -/
theorem QualCode_iff (aList bList : List Pair)
    (ha : List.Pairwise (fun a b : Pair => pairLtB a b = true) aList)
    (hb : List.Pairwise (fun a b : Pair => pairLtB a b = true) bList)
    (hane : aList ≠ []) :
    QualCode aList bList ↔
      (bList.Sublist aList ∧ bList ≠ aList ∧ aList.headD (0, 0) ∈ bList) := by
  obtain ⟨a0, ar, rfl⟩ : ∃ a0 ar, aList = a0 :: ar := by
    cases aList with
    | nil => exact absurd rfl hane
    | cons a0 ar => exact ⟨a0, ar, rfl⟩
  constructor
  · rintro ⟨hlen, hhead, hsub⟩
    obtain ⟨hbne, hsubl⟩ := (subsetTP_iff_sublist _ _ ha hb).mp hsub
    obtain ⟨b0, bt, rfl⟩ : ∃ b0 bt, bList = b0 :: bt := by
      cases bList with
      | nil => exact absurd rfl hbne
      | cons b0 bt => exact ⟨b0, bt, rfl⟩
    have hb0mem : b0 ∈ a0 :: ar := hsubl.subset (List.mem_cons_self _ _)
    have hle : pairLeB a0 b0 = true := sorted_head_le ha b0 hb0mem
    have hba : pairLtB b0 a0 = false := pairLtB_not_of_le hle
    have heq : a0 = b0 := pair_eq_of_not_lt (by simpa using hhead) hba
    refine ⟨hsubl, ?_, ?_⟩
    · intro he
      rw [he] at hlen
      omega
    · rw [List.headD_cons, heq]
      exact List.mem_cons_self _ _
  · rintro ⟨hsubl, hne, hmem⟩
    rw [List.headD_cons] at hmem
    have hbne : bList ≠ [] := by
      intro he
      rw [he] at hmem
      simp at hmem
    obtain ⟨b0, bt, rfl⟩ : ∃ b0 bt, bList = b0 :: bt := by
      cases bList with
      | nil => exact absurd rfl hbne
      | cons b0 bt => exact ⟨b0, bt, rfl⟩
    refine ⟨?_, ?_, (subsetTP_iff_sublist _ _ ha hb).mpr ⟨hbne, hsubl⟩⟩
    · have := hsubl.length_le
      rcases Nat.lt_or_ge (b0 :: bt).length (a0 :: ar).length with h | h
      · exact h
      · exact absurd (hsubl.eq_of_length (by omega)) hne
    · have hle : pairLeB b0 a0 = true := sorted_head_le hb a0 hmem
      rw [List.headD_cons]
      exact pairLtB_not_of_le hle

/-- The set-difference removed by a qualifying subset starts strictly above
the base's first facet, so in the sorted accepted list it can only appear at
an index after the subset's: the code's complement search from `bIdx + 1`
misses nothing. -/
theorem complement_at_later_index
    (vec : List (List Pair))
    (hchain : List.Chain' (fun x y : List Pair => listLeB x y = true) vec)
    {aList bList : List Pair} {bIdx cIdx : Nat}
    (hb : vec[bIdx]? = some bList)
    (hc : vec[cIdx]? = some (aList.filter (fun g => decide (g ∉ bList))))
    (ha : List.Pairwise (fun a b : Pair => pairLtB a b = true) aList)
    (hbsorted : List.Pairwise (fun a b : Pair => pairLtB a b = true) bList)
    (hane : aList ≠ [])
    (hqual : bList.Sublist aList ∧ bList ≠ aList ∧ aList.headD (0, 0) ∈ bList) :
    bIdx + 1 ≤ cIdx := by
  haveI : IsTrans (List Pair) (fun a b : List Pair => listLeB a b = true) :=
    ⟨fun _ _ _ => listLeB_trans⟩
  obtain ⟨hsubl, hne, hmem⟩ := hqual
  obtain ⟨a0, ar, rfl⟩ : ∃ a0 ar, aList = a0 :: ar := by
    cases aList with
    | nil => exact absurd rfl hane
    | cons a0 ar => exact ⟨a0, ar, rfl⟩
  rw [List.headD_cons] at hmem
  have hanodup : (a0 :: ar).Nodup := ha.imp (fun h => pairLtB_ne h)
  have hdne : (a0 :: ar).filter (fun g => decide (g ∉ bList)) ≠ [] := by
    intro he
    have hall : ∀ g ∈ a0 :: ar, g ∈ bList := by
      intro g hg
      have := List.filter_eq_nil_iff.mp he g hg
      simpa using this
    have hsub2 : (a0 :: ar) ⊆ bList := hall
    have hlen1 : (a0 :: ar).length ≤ bList.length :=
      (hanodup.subperm hsub2).length_le
    have hlen2 : bList.length ≤ (a0 :: ar).length := hsubl.length_le
    exact hne (hsubl.eq_of_length (by omega))
  obtain ⟨d0, dt, hd⟩ : ∃ d0 dt,
      (a0 :: ar).filter (fun g => decide (g ∉ bList)) = d0 :: dt := by
    cases hdd : (a0 :: ar).filter (fun g => decide (g ∉ bList)) with
    | nil => exact absurd hdd hdne
    | cons d0 dt => exact ⟨d0, dt, rfl⟩
  have hd0 : d0 ∈ (a0 :: ar) ∧ d0 ∉ bList := by
    have : d0 ∈ (a0 :: ar).filter (fun g => decide (g ∉ bList)) := by
      rw [hd]
      exact List.mem_cons_self _ _
    have h2 := List.mem_filter.mp this
    exact ⟨h2.1, by simpa using h2.2⟩
  have hd0a0 : pairLtB a0 d0 = true := by
    rcases List.mem_cons.mp hd0.1 with rfl | hdr
    · exact absurd hmem hd0.2
    · exact (List.pairwise_cons.mp ha).1 d0 hdr
  obtain ⟨b0, bt, rfl⟩ : ∃ b0 bt, bList = b0 :: bt := by
    cases bList with
    | nil => simp at hmem
    | cons b0 bt => exact ⟨b0, bt, rfl⟩
  have hb0 : b0 = a0 := by
    have h1 : pairLeB b0 a0 = true := sorted_head_le hbsorted a0 hmem
    have h2 : pairLeB a0 b0 = true :=
      sorted_head_le ha b0 (hsubl.subset (List.mem_cons_self _ _))
    exact pairLeB_antisymm h1 h2
  by_contra hcon
  have hcb : cIdx ≤ bIdx := by omega
  have hpw := List.chain'_iff_pairwise.mp hchain
  have hle : listLeB (d0 :: dt) (b0 :: bt) = true := by
    rcases Nat.lt_or_ge cIdx bIdx with h | h
    · obtain ⟨hclt, hceq⟩ := List.getElem?_eq_some.mp hc
      obtain ⟨hblt, hbeq⟩ := List.getElem?_eq_some.mp hb
      have := List.pairwise_iff_get.mp hpw ⟨cIdx, hclt⟩ ⟨bIdx, hblt⟩ h
      rw [List.get_eq_getElem, List.get_eq_getElem, hbeq] at this
      rw [hceq, hd] at this
      exact this
    · have hcbeq : cIdx = bIdx := by omega
      rw [hcbeq, hb] at hc
      have heq2 : b0 :: bt = d0 :: dt := by
        have h3 := Option.some.inj hc
        rw [hd] at h3
        exact h3
      rw [heq2]
      exact listLeB_refl _
  have hdb : pairLeB d0 b0 = true := listLeB_head hle
  rw [hb0] at hdb
  rw [pairLtB_not_of_le hdb] at hd0a0
  exact Bool.false_ne_true hd0a0

/-- Claim-level condition of the exclusion path: some accepted list is a
proper subset of the base containing the base's first facet. -/
def HasQualSubset (vec : List (List Pair)) (aList : List Pair) : Prop :=
  ∃ (bIdx : Nat) (bList : List Pair), vec[bIdx]? = some bList ∧
    bList.Sublist aList ∧ bList ≠ aList ∧ aList.headD (0, 0) ∈ bList

/-- Claim-level two-component condition: a qualifying subset whose
set-difference with the base equals some accepted list. -/
def IsMixedCompound (vec : List (List Pair)) (aList : List Pair) : Prop :=
  ∃ (bIdx : Nat) (bList : List Pair), vec[bIdx]? = some bList ∧
    bList.Sublist aList ∧ bList ≠ aList ∧ aList.headD (0, 0) ∈ bList ∧
    ∃ (cIdx : Nat), vec[cIdx]? = some (aList.filter (fun g => decide (g ∉ bList)))

/-- A panicking scan for any base list makes the whole labeling panic. -/
theorem lmcGo_error (vec : List (List Pair)) :
    ∀ (idxs : List (Nat × List Pair)) (aIdx : Nat) (aList : List Pair),
    (aIdx, aList) ∈ idxs → lmcScan vec aList vec.enum = .error () →
    lmcGo vec idxs = .error () := by
  intro idxs
  induction idxs with
  | nil =>
    intro aIdx aList h _
    simp at h
  | cons p rest ih =>
    intro aIdx aList hmem hscan
    obtain ⟨qIdx, qList⟩ := p
    rw [lmcGo]
    rcases List.mem_cons.mp hmem with heq | hmr
    · rw [Prod.mk.injEq] at heq
      obtain ⟨rfl, rfl⟩ := heq
      rw [hscan]
    · match hq : lmcScan vec qList vec.enum with
      | .error e =>
        cases e
        rfl
      | .ok none => exact ih aIdx aList hmr hscan
      | .ok (some bc) =>
        rw [ih aIdx aList hmr hscan]
        rfl

/-- Claim C6 (amended): on a sorted list of accepted facetings,
`label_mixed_compounds` (when it does not panic) records list `a` as a mixed
compound exactly when some accepted list `b` is a proper subset of `a`
containing `a`'s first facet whose set-difference from `a` equals some other
accepted list; when compound output is not requested,
`filter_mixed_compounds` excludes `a` exactly when such a qualifying subset
exists, with NO check that the complement is present; and if a qualifying
subset is found whose complement matches no accepted list, the labeling path
aborts fatally (the `panic!("could not find complement")`, modelled as
`Except.error`). -/
theorem c6_mixed_compound_detection
    (vec : List (List Pair))
    (hchain : List.Chain' (fun x y : List Pair => listLeB x y = true) vec)
    (hsorted : ∀ l ∈ vec, List.Pairwise (fun a b : Pair => pairLtB a b = true) l)
    (hnonempty : ∀ l ∈ vec, l ≠ []) :
    (∀ m, label_mixed_compounds vec = .ok m →
      ∀ (aIdx : Nat) (aList : List Pair), vec[aIdx]? = some aList →
        ((∃ bc, (aIdx, bc) ∈ m) ↔ IsMixedCompound vec aList)) ∧
    (∀ (aIdx : Nat) (aList : List Pair), vec[aIdx]? = some aList →
      (aIdx ∈ filter_mixed_compounds vec ↔ ¬ HasQualSubset vec aList)) ∧
    (∀ (aIdx : Nat) (aList : List Pair), vec[aIdx]? = some aList →
      HasQualSubset vec aList →
      (∀ (bIdx : Nat) (bList : List Pair), vec[bIdx]? = some bList →
        bList.Sublist aList → bList ≠ aList → aList.headD (0, 0) ∈ bList →
        ∀ i : Nat, vec[i]? ≠ some (aList.filter (fun g => decide (g ∉ bList)))) →
      label_mixed_compounds vec = .error ()) := by
  refine ⟨?_, ?_, ?_⟩
  · intro m hok aIdx aList haidx
    have hmemEnum : (aIdx, aList) ∈ vec.enum :=
      List.mem_enum_iff_getElem?.mpr haidx
    obtain ⟨hsound, hcomp⟩ := lmcGo_ok vec vec.enum m hok
    have haInVec : aList ∈ vec := mem_of_getElem?_list haidx
    constructor
    · rintro ⟨bc, hbc⟩
      obtain ⟨aL, haL, hscan⟩ := hsound (aIdx, bc) hbc
      have haL2 : vec[aIdx]? = some aL := List.mem_enum_iff_getElem?.mp haL
      have haLeq : aL = aList := by
        rw [haidx] at haL2
        exact (Option.some.inj haL2).symm
      subst haLeq
      obtain ⟨b, c⟩ := bc
      obtain ⟨bList, hbmem, hqc, hbc1, hcomp2⟩ :=
        lmcScan_ok_some vec aL vec.enum b c hscan
      have hbIdx : vec[b]? = some bList := List.mem_enum_iff_getElem?.mp hbmem
      have hbInVec : bList ∈ vec := mem_of_getElem?_list hbIdx
      have hclaims := (QualCode_iff aL bList (hsorted _ haInVec)
        (hsorted _ hbInVec) (hnonempty _ haInVec)).mp hqc
      have hcompeq : complementTP bList aL =
          aL.filter (fun g => decide (g ∉ bList)) :=
        complementTP_eq_filter aL bList (hsorted _ haInVec) hclaims.1
      refine ⟨b, bList, hbIdx, hclaims.1, hclaims.2.1, hclaims.2.2, c, ?_⟩
      rw [← hcompeq]
      exact hcomp2
    · rintro ⟨bIdx, bList, hbIdx, hsubl, hne2, hmem2, cIdx, hcIdx⟩
      have hbInVec : bList ∈ vec := mem_of_getElem?_list hbIdx
      have hqc := (QualCode_iff aList bList (hsorted _ haInVec)
        (hsorted _ hbInVec) (hnonempty _ haInVec)).mpr ⟨hsubl, hne2, hmem2⟩
      have hexists : ∃ p ∈ vec.enum, QualCode aList p.2 :=
        ⟨(bIdx, bList), List.mem_enum_iff_getElem?.mpr hbIdx, hqc⟩
      have hnotnone : lmcScan vec aList vec.enum ≠ .ok none := by
        intro h
        exact (lmcScan_ok_none_iff vec aList vec.enum (enum_chain hchain)).mp
          h hexists
      have hnoterr := (hcomp aIdx aList hmemEnum).1
      match hs : lmcScan vec aList vec.enum with
      | .error e =>
        cases e
        exact absurd hs hnoterr
      | .ok none => exact absurd hs hnotnone
      | .ok (some bc) => exact ⟨bc, (hcomp aIdx aList hmemEnum).2 bc hs⟩
  · intro aIdx aList haidx
    have haInVec : aList ∈ vec := mem_of_getElem?_list haidx
    rw [filter_mixed_compounds]
    constructor
    · intro hmem hqs
      obtain ⟨x, hx, hfst⟩ := List.mem_map.mp hmem
      obtain ⟨hxe, hxf⟩ := List.mem_filter.mp hx
      have hxq : vec[x.1]? = some x.2 := List.mem_enum_iff_getElem?.mp hxe
      rw [hfst, haidx] at hxq
      have hx2 : x.2 = aList := (Option.some.inj hxq).symm
      obtain ⟨bIdx, bList, hbIdx, hsubl, hne2, hmem2⟩ := hqs
      have hbInVec : bList ∈ vec := mem_of_getElem?_list hbIdx
      have hqc := (QualCode_iff aList bList (hsorted _ haInVec)
        (hsorted _ hbInVec) (hnonempty _ haInVec)).mpr ⟨hsubl, hne2, hmem2⟩
      have hfm : fmcScan aList vec = true :=
        (fmcScan_eq_true_iff aList vec hchain).mpr ⟨bList, hbInVec, hqc⟩
      rw [hx2, hfm] at hxf
      simp at hxf
    · intro hno
      refine List.mem_map.mpr ⟨(aIdx, aList),
        List.mem_filter.mpr ⟨List.mem_enum_iff_getElem?.mpr haidx, ?_⟩, rfl⟩
      have hfm : fmcScan aList vec = false := by
        rw [← Bool.not_eq_true]
        intro htrue
        obtain ⟨bList, hbmem, hqc⟩ :=
          (fmcScan_eq_true_iff aList vec hchain).mp htrue
        obtain ⟨bIdx, hbIdx⟩ := List.mem_iff_getElem?.mp hbmem
        have hclaims := (QualCode_iff aList bList (hsorted _ haInVec)
          (hsorted _ hbmem) (hnonempty _ haInVec)).mp hqc
        exact hno ⟨bIdx, bList, hbIdx, hclaims.1, hclaims.2.1, hclaims.2.2⟩
      rw [hfm]
      rfl
  · intro aIdx aList haidx hqs hnone
    have haInVec : aList ∈ vec := mem_of_getElem?_list haidx
    obtain ⟨bIdx, bList, hbIdx, hsubl, hne2, hmem2⟩ := hqs
    have hbInVec : bList ∈ vec := mem_of_getElem?_list hbIdx
    have hscanerr : lmcScan vec aList vec.enum = .error () := by
      refine lmcScan_error_of vec aList vec.enum (enum_chain hchain) ?_ ?_
      · exact ⟨(bIdx, bList), List.mem_enum_iff_getElem?.mpr hbIdx,
          (QualCode_iff aList bList (hsorted _ haInVec) (hsorted _ hbInVec)
            (hnonempty _ haInVec)).mpr ⟨hsubl, hne2, hmem2⟩⟩
      · intro p hp hqc i
        have hpidx : vec[p.1]? = some p.2 := List.mem_enum_iff_getElem?.mp hp
        have hpInVec : p.2 ∈ vec := mem_of_getElem?_list hpidx
        have hclaims := (QualCode_iff aList p.2 (hsorted _ haInVec)
          (hsorted _ hpInVec) (hnonempty _ haInVec)).mp hqc
        rw [complementTP_eq_filter aList p.2 (hsorted _ haInVec) hclaims.1]
        exact hnone p.1 p.2 hpidx hclaims.1 hclaims.2.1 hclaims.2.2 i
    exact lmcGo_error vec vec.enum aIdx aList
      (List.mem_enum_iff_getElem?.mpr haidx) hscanerr

/-- Counterexample to claim C6 as stated: with accepted lists
`[[(0,0)], [(0,0),(1,0)]]`, index 1 is excluded by
`filter_mixed_compounds` because `[(0,0)]` passes the subset test, yet the
two-component condition fails (no accepted list equals the complement
`[(1,0)]`) — the exclusion path checks only the subset half of the condition,
and it does not abort; the labeling path does panic on the same input. -/
theorem c6_filter_counterexample :
    ((1 : Nat) ∉ filter_mixed_compounds [[(0, 0)], [(0, 0), (1, 0)]]) ∧
    ¬ IsMixedCompound [[(0, 0)], [(0, 0), (1, 0)]] [(0, 0), (1, 0)] ∧
    label_mixed_compounds [[(0, 0)], [(0, 0), (1, 0)]] = .error () := by
  refine ⟨by decide, ?_, by rfl⟩
  rintro ⟨bIdx, bList, hb, hsub, hne, hmem, cIdx, hc⟩
  match bIdx, hb with
  | 0, hb =>
    have hbl : bList = [(0, 0)] := by
      have : some [((0 : Nat), (0 : Nat))] = some bList := hb
      exact (Option.some.inj this).symm
    subst hbl
    have hdiff : (([(0, 0), (1, 0)] : List Pair).filter
        (fun g => decide (g ∉ ([((0 : Nat), (0 : Nat))] : List Pair)))) = [(1, 0)] := by
      decide
    rw [hdiff] at hc
    match cIdx, hc with
    | 0, hc => exact absurd hc (by decide)
    | 1, hc => exact absurd hc (by decide)
    | n + 2, hc =>
      rw [List.getElem?_eq_none (by simp)] at hc
      exact Option.noConfusion hc
  | 1, hb =>
    have hbl : bList = [(0, 0), (1, 0)] := by
      have : some [((0 : Nat), (0 : Nat)), (1, 0)] = some bList := hb
      exact (Option.some.inj this).symm
    exact hne (by rw [hbl])
  | n + 2, hb =>
    rw [List.getElem?_eq_none (by simp)] at hb
    exact Option.noConfusion hb

/-- Witness for C6: on the sorted accepted lists
`[[(0,0)], [(0,0),(1,0)], [(1,0)]]` the labeling succeeds and records index 1
as the compound of `[(0,0)]` and `[(1,0)]`; the characterization theorem
instantiated there certifies the two-component condition. -/
theorem c6_mixed_compound_detection_witness :
    IsMixedCompound [[(0, 0)], [(0, 0), (1, 0)], [(1, 0)]] [(0, 0), (1, 0)] := by
  have h := c6_mixed_compound_detection [[(0, 0)], [(0, 0), (1, 0)], [(1, 0)]]
    (by
      rw [List.chain'_cons, List.chain'_cons]
      exact ⟨by decide, by decide, List.chain'_singleton _⟩)
    (by decide) (by decide)
  exact (h.1 [(1, (0, 2))] (by rfl) 1 [(0, 0), (1, 0)] (by rfl)).mp
    ⟨(0, 2), by decide⟩

/-- The data of the facet-combination search of `Concrete::faceting`
(faceting.rs lines 1862-2020), as computed before the search loop starts. -/
structure SearchCtx where
  /-- For each hyperplane orbit, for each facet candidate, the list
  `possible_facets[hp][f].1` of local `(sub-hyperplane, ridge)` index pairs;
  the outer length is the number of hyperplane orbits and
  `(ridgeIdxs[hp]).length` the number of facet candidates of orbit `hp`. -/
  ridgeIdxs : List (List (List (Nat × Nat)))
  /-- `ridge_idx_orbits[hp][sub][i]`: the global ridge orbit of each local
  ridge occurrence. -/
  ridgeIdxOrbits : List (List (List Nat))
  /-- `ridge_muls[hp][f]`: the per-ridge-orbit multiplicity vector of each
  facet candidate (faceting.rs lines 1862-1889). -/
  ridgeMuls : List (List (List Nat))
  /-- `ones[g]`: the `(hyperplane, facet)` pairs contributing multiplicity
  exactly 1 to ridge orbit `g`, built in increasing order. -/
  ones : List (List Pair)
  /-- `ridge_counts.len()`: the number of global ridge orbits. -/
  numOrbits : Nat
  /-- The `include_compounds` flag gating extensions from a valid state. -/
  includeCompounds : Bool
  /-- The `noble` facet-count cap. -/
  noble : Option Nat
  /-- The compound splitting applied to an accepted facet list before
  emission (faceting.rs lines 1947-1966; modelled concretely by
  `splitFacets`). -/
  split : List Pair → List Pair

/-- A queue entry of the search: facet list, minimum hyperplane, and cached
ridge multiplicities (faceting.rs lines 1893-1897). -/
structure Item where
  facets : List Pair
  minHp : Nat
  cache : List Nat
deriving DecidableEq, Repr

/-- `possible_facets[hp].len()`. -/
def numFacets (ctx : SearchCtx) (hp : Nat) : Nat :=
  (ctx.ridgeIdxs.getD hp []).length

/-- `ridge_idx_orbits[hp][ridge_idx.0][ridge_idx.1]`. -/
def orbitOf (ctx : SearchCtx) (hp : Nat) (ri : Nat × Nat) : Nat :=
  ((ctx.ridgeIdxOrbits.getD hp []).getD ri.1 []).getD ri.2 0

/-- `ridge_muls[hp][f][g]`. -/
def mulOf (ctx : SearchCtx) (hp f g : Nat) : Nat :=
  ((ctx.ridgeMuls.getD hp []).getD f []).getD g 0

/-- The multiplicity update of faceting.rs lines 1925-1934: each local ridge
occurrence of the facet adds its tabulated multiplicity to its global ridge
orbit, stopping as soon as the just-updated orbit exceeds 2. -/
def addMulsBreak (ctx : SearchCtx) (hp f : Nat) :
    List (Nat × Nat) → List Nat → List Nat
  | [], muls => muls
  | ri :: rest, muls =>
    let g := orbitOf ctx hp ri
    let m2 := muls.set g (muls.getD g 0 + mulOf ctx hp f g)
    if m2.getD g 0 > 2 then m2 else addMulsBreak ctx hp f rest m2

/-- The same update without the early break, giving the fully updated
multiplicity vector. -/
def addMulsFull (ctx : SearchCtx) (hp f : Nat) :
    List (Nat × Nat) → List Nat → List Nat
  | [], muls => muls
  | ri :: rest, muls =>
    let g := orbitOf ctx hp ri
    addMulsFull ctx hp f rest (muls.set g (muls.getD g 0 + mulOf ctx hp f g))

/-- `facets.last().unwrap()` (the queue never holds an empty facet list). -/
def lastFacet (it : Item) : Pair := it.facets.getLastD (0, 0)

/-- The local ridge occurrences of the last-chosen facet. -/
def lastRidgeIdxs (ctx : SearchCtx) (it : Item) : List (Nat × Nat) :=
  (ctx.ridgeIdxs.getD (lastFacet it).1 []).getD (lastFacet it).2 []

/-- The updated multiplicity vector computed when an item is popped
(faceting.rs lines 1918-1934). -/
def stepMuls (ctx : SearchCtx) (it : Item) : List Nat :=
  addMulsBreak ctx (lastFacet it).1 (lastFacet it).2 (lastRidgeIdxs ctx it)
    it.cache

/-- The fully updated multiplicity vector (no early break). -/
def stepMulsFull (ctx : SearchCtx) (it : Item) : List Nat :=
  addMulsFull ctx (lastFacet it).1 (lastFacet it).2 (lastRidgeIdxs ctx it)
    it.cache

/-- The classification loop of faceting.rs lines 1935-1944: scan the
multiplicities, return 1 (exotic) at the first entry above 2, remember 2
(incomplete) when an entry equals 1, default 0 (valid). -/
def classifyLoop : List Nat → Nat → Nat
  | [], acc => acc
  | r :: rest, acc =>
    if r > 2 then 1 else classifyLoop rest (if r == 1 then 2 else acc)

/-- The `valid` flag of faceting.rs lines 1935-1944. -/
def classify (muls : List Nat) : Nat := classifyLoop muls 0

/-- `used_hps`: the hyperplanes of all but the first chosen facet
(faceting.rs lines 1976-1979 and 1998-2001). -/
def usedHps (facets : List Pair) : List Nat := facets.tail.map Prod.fst

/-- The noble facet-count cap check (faceting.rs lines 1970-1974 and
1993-1997): extensions are suppressed once the combination reaches the cap. -/
def nobleOk (ctx : SearchCtx) (it : Item) : Bool :=
  match ctx.noble with
  | some maxF => !(it.facets.length == maxF)
  | none => true

/-- Extensions from a valid state (faceting.rs lines 1980-1988): every facet
of every unused hyperplane orbit strictly above the branch minimum, which
becomes the new minimum. -/
def validExts (ctx : SearchCtx) (it : Item) (newMuls : List Nat) : List Item :=
  ((((List.range ctx.ridgeIdxs.length).drop (it.minHp + 1)).filter
    (fun hp => !(usedHps it.facets).contains hp)).map
    (fun hp => (List.range (numFacets ctx hp)).map
      (fun f => Item.mk (it.facets ++ [(hp, f)]) hp newMuls))).flatten

/-- Extensions from an incomplete state (faceting.rs lines 2002-2016): the
multiplicity-1 entries of the first open ridge orbit, skipping entries at or
below the branch minimum (via `binary`) and used hyperplanes; the minimum is
kept. -/
def incompleteExts (ctx : SearchCtx) (it : Item) (newMuls : List Nat) :
    List Item :=
  match newMuls.findIdx? (fun r => r == 1) with
  | none => []
  | some g =>
    (((ctx.ones.getD g []).drop (binary (ctx.ones.getD g []) it.minHp)).filter
      (fun p => !(usedHps it.facets).contains p.1)).map
      (fun p => Item.mk (it.facets ++ [p]) it.minHp newMuls)

/-- One pop of the search loop (faceting.rs lines 1909-2019): compute the
updated multiplicities, classify, and return the emitted (compound-split)
facet list, if any, together with the items pushed onto the queue. -/
def facetingStep (ctx : SearchCtx) (it : Item) : Option (List Pair) × List Item :=
  let newMuls := stepMuls ctx it
  match classify newMuls with
  | 0 =>
    (some (ctx.split it.facets),
      if nobleOk ctx it then
        (if ctx.includeCompounds then validExts ctx it newMuls else [])
      else [])
  | 1 => (none, [])
  | _ =>
    (none, if nobleOk ctx it then incompleteExts ctx it newMuls else [])

/-- Queue seeding (faceting.rs lines 1899-1907): one singleton combination
per `(hyperplane, facet)` pair, with an all-zero multiplicity vector. -/
def initQueue (ctx : SearchCtx) : List Item :=
  ((List.range ctx.ridgeIdxs.length).map (fun hp =>
    (List.range (numFacets ctx hp)).map (fun f =>
      Item.mk [(hp, f)] hp (List.replicate ctx.numOrbits 0)))).flatten

/-- The search loop (faceting.rs lines 1909-2020).  The `VecDeque` is used as
a stack (`pop_back`, `push_back`); here the queue's head is the stack top, so
a step's pushes are prepended in reverse.  `fuel` bounds the number of pops;
the Boolean reports whether the queue emptied within the fuel.  The popped
items accepted as valid are collected in order; the source pushes
`ctx.split it.facets` for each of them into `output_facets`. -/
def runSearchItems (ctx : SearchCtx) : Nat → List Item → List Item →
    List Item × Bool
  | 0, [], acc => (acc, true)
  | 0, _ :: _, acc => (acc, false)
  | _ + 1, [], acc => (acc, true)
  | fuel + 1, it :: rest, acc =>
    let sp := facetingStep ctx it
    runSearchItems ctx fuel (sp.2.reverse ++ rest)
      (if sp.1.isSome then acc ++ [it] else acc)

/-- The `output_facets` list of the source (before the final sort at line
2024): the compound-split facet lists of the accepted combinations, in
emission order. -/
def outputFacets (ctx : SearchCtx) (fuel : Nat) : List (List Pair) :=
  ((runSearchItems ctx fuel (initQueue ctx).reverse []).1).map
    (fun it => ctx.split it.facets)

theorem getD_set (l : List Nat) (g v i : Nat) :
    (l.set g v).getD i 0 = if g = i ∧ g < l.length then v else l.getD i 0 := by
  rw [List.getD_eq_getElem?_getD, List.getD_eq_getElem?_getD, List.getElem?_set]
  by_cases hgi : g = i
  · subst hgi
    by_cases hlt : g < l.length
    · simp [hlt]
    · simp [hlt]
      rw [List.getElem?_eq_none (by omega)]
      rfl
  · simp [hgi]

theorem getD_set_same (l : List Nat) (g v i : Nat) (h : g ≠ i) :
    (l.set g v).getD i 0 = l.getD i 0 := by
  rw [getD_set]
  simp [h]

/-- The classification loop in terms of the whole multiplicity list. -/
theorem classifyLoop_spec (l : List Nat) :
    ∀ acc, acc = 0 ∨ acc = 2 →
    (classifyLoop l acc = 1 ↔ ∃ x ∈ l, x > 2) ∧
    (classifyLoop l acc = 0 ↔ (∀ x ∈ l, ¬ x > 2) ∧ acc = 0 ∧ ∀ x ∈ l, x ≠ 1) ∧
    (classifyLoop l acc = 2 ↔ (∀ x ∈ l, ¬ x > 2) ∧ (acc = 2 ∨ ∃ x ∈ l, x = 1)) := by
  induction l with
  | nil =>
    intro acc hacc
    rw [classifyLoop]
    refine ⟨?_, ?_, ?_⟩ <;> simp <;> omega
  | cons r rest ih =>
    intro acc hacc
    rw [classifyLoop]
    by_cases hr : r > 2
    · rw [if_pos hr]
      refine ⟨?_, ?_, ?_⟩
      · simp only [true_iff]
        exact ⟨r, List.mem_cons_self _ _, hr⟩
      · constructor
        · intro h
          omega
        · rintro ⟨hall, _, _⟩
          exact absurd hr (hall r (List.mem_cons_self _ _))
      · constructor
        · intro h
          omega
        · rintro ⟨hall, _⟩
          exact absurd hr (hall r (List.mem_cons_self _ _))
    · rw [if_neg hr]
      have hacc2 : (if r == 1 then 2 else acc) = 0 ∨ (if r == 1 then 2 else acc) = 2 := by
        by_cases h1 : r == 1
        · simp [h1]
        · simp [h1]
          exact hacc
      obtain ⟨i1, i0, i2⟩ := ih (if r == 1 then 2 else acc) hacc2
      refine ⟨?_, ?_, ?_⟩
      · rw [i1]
        constructor
        · rintro ⟨x, hx, hx2⟩
          exact ⟨x, List.mem_cons_of_mem _ hx, hx2⟩
        · rintro ⟨x, hx, hx2⟩
          rcases List.mem_cons.mp hx with rfl | hxr
          · exact absurd hx2 hr
          · exact ⟨x, hxr, hx2⟩
      · rw [i0]
        constructor
        · rintro ⟨hall, hifacc, hne⟩
          by_cases h1 : r == 1
          · simp [h1] at hifacc
          · simp [h1] at hifacc ⊢
            refine ⟨⟨by omega, fun x hx => by have := hall x hx; omega⟩, hifacc, ?_⟩
            exact ⟨by simpa using h1, hne⟩
        · rintro ⟨hall, hacc0, hne⟩
          have h1 : (r == 1) = false := by
            simp
            exact hne r (List.mem_cons_self _ _)
          rw [h1]
          simp only [Bool.false_eq_true, if_false]
          exact ⟨fun x hx => hall x (List.mem_cons_of_mem _ hx), hacc0,
            fun x hx => hne x (List.mem_cons_of_mem _ hx)⟩
      · rw [i2]
        constructor
        · rintro ⟨hall, hor⟩
          refine ⟨?_, ?_⟩
          · intro x hx
            rcases List.mem_cons.mp hx with rfl | hxr
            · exact hr
            · exact hall x hxr
          · by_cases h1 : r == 1
            · right
              exact ⟨r, List.mem_cons_self _ _, by simpa using h1⟩
            · rw [if_neg (by simpa using h1)] at hor
              rcases hor with h | ⟨x, hx, hx1⟩
              · left; exact h
              · right; exact ⟨x, List.mem_cons_of_mem _ hx, hx1⟩
        · rintro ⟨hall, hor⟩
          refine ⟨fun x hx => hall x (List.mem_cons_of_mem _ hx), ?_⟩
          by_cases h1 : r == 1
          · left
            simp [h1]
          · rw [if_neg (by simpa using h1)]
            rcases hor with h | ⟨x, hx, hx1⟩
            · left; exact h
            · rcases List.mem_cons.mp hx with rfl | hxr
              · exact absurd hx1 (by simpa using h1)
              · right; exact ⟨x, hxr, hx1⟩

theorem exists_getD_iff_mem {P : Nat → Prop} (hP0 : ¬ P 0) (l : List Nat) :
    (∃ i : Nat, P (l.getD i 0)) ↔ ∃ x ∈ l, P x := by
  constructor
  · rintro ⟨i, hi⟩
    rcases Nat.lt_or_ge i l.length with h | h
    · exact ⟨l.getD i 0, by
        rw [List.getD_eq_getElem _ _ h]
        exact List.getElem_mem h, hi⟩
    · rw [List.getD_eq_getElem?_getD, List.getElem?_eq_none (by omega)] at hi
      exact absurd hi hP0
  · rintro ⟨x, hx, hPx⟩
    obtain ⟨i, hilt, hieq⟩ := List.mem_iff_getElem.mp hx
    exact ⟨i, by rw [List.getD_eq_getElem _ _ hilt, hieq]; exact hPx⟩

theorem forall_getD_iff_mem {P : Nat → Prop} (hP0 : P 0) (l : List Nat) :
    (∀ i : Nat, P (l.getD i 0)) ↔ ∀ x ∈ l, P x := by
  constructor
  · intro h x hx
    obtain ⟨i, hilt, hieq⟩ := List.mem_iff_getElem.mp hx
    have := h i
    rw [List.getD_eq_getElem _ _ hilt, hieq] at this
    exact this
  · intro h i
    rcases Nat.lt_or_ge i l.length with hlt | hge
    · refine h _ ?_
      rw [List.getD_eq_getElem _ _ hlt]
      exact List.getElem_mem hlt
    · rw [List.getD_eq_getElem?_getD, List.getElem?_eq_none (by omega)]
      exact hP0

/-- Entries only grow under the full multiplicity update. -/
theorem addMulsFull_mono (ctx : SearchCtx) (hp f : Nat) :
    ∀ (ris : List (Nat × Nat)) (muls : List Nat) (i : Nat),
    muls.getD i 0 ≤ (addMulsFull ctx hp f ris muls).getD i 0 := by
  intro ris
  induction ris with
  | nil => intro muls i; rw [addMulsFull]
  | cons ri rest ih =>
    intro muls i
    rw [addMulsFull]
    refine le_trans ?_ (ih _ i)
    rw [getD_set]
    by_cases h : orbitOf ctx hp ri = i ∧ orbitOf ctx hp ri < muls.length
    · rw [if_pos h]
      obtain ⟨rfl, _⟩ := h
      omega
    · rw [if_neg h]

/-- The early break leaves an entry above 2 exactly when the full update
produces one. -/
theorem addMulsBreak_gt2_iff (ctx : SearchCtx) (hp f : Nat) :
    ∀ (ris : List (Nat × Nat)) (muls : List Nat),
    ((∃ i : Nat, (addMulsBreak ctx hp f ris muls).getD i 0 > 2) ↔
      (∃ i : Nat, (addMulsFull ctx hp f ris muls).getD i 0 > 2)) ∧
    ((∀ i : Nat, (addMulsFull ctx hp f ris muls).getD i 0 ≤ 2) →
      addMulsBreak ctx hp f ris muls = addMulsFull ctx hp f ris muls) := by
  intro ris
  induction ris with
  | nil =>
    intro muls
    rw [addMulsBreak, addMulsFull]
    exact ⟨Iff.rfl, fun _ => rfl⟩
  | cons ri rest ih =>
    intro muls
    rw [addMulsBreak, addMulsFull]
    set g := orbitOf ctx hp ri with hg
    set m2 := muls.set g (muls.getD g 0 + mulOf ctx hp f g) with hm2
    by_cases hbr : m2.getD g 0 > 2
    · rw [if_pos hbr]
      constructor
      · constructor
        · intro _
          exact ⟨g, lt_of_lt_of_le hbr (addMulsFull_mono ctx hp f rest m2 g)⟩
        · intro _
          exact ⟨g, hbr⟩
      · intro hall
        exact absurd (lt_of_lt_of_le hbr (addMulsFull_mono ctx hp f rest m2 g))
          (by have := hall g; omega)
    · rw [if_neg hbr]
      exact ih m2

/-- The classification computed on the broken-off vector agrees with the
classification of the fully updated vector. -/
theorem classify_break_eq_full (ctx : SearchCtx) (it : Item) :
    classify (stepMuls ctx it) = classify (stepMulsFull ctx it) := by
  obtain ⟨hiff, heq⟩ := addMulsBreak_gt2_iff ctx (lastFacet it).1 (lastFacet it).2
    (lastRidgeIdxs ctx it) it.cache
  by_cases hgt : ∃ i : Nat, (stepMulsFull ctx it).getD i 0 > 2
  · have h1 : classify (stepMuls ctx it) = 1 := by
      rw [classify]
      refine (classifyLoop_spec _ 0 (Or.inl rfl)).1.mpr ?_
      rw [← exists_getD_iff_mem (by omega)]
      exact hiff.mpr hgt
    have h2 : classify (stepMulsFull ctx it) = 1 := by
      rw [classify]
      refine (classifyLoop_spec _ 0 (Or.inl rfl)).1.mpr ?_
      rw [← exists_getD_iff_mem (by omega)]
      exact hgt
    rw [h1, h2]
  · have hall : ∀ i : Nat, (stepMulsFull ctx it).getD i 0 ≤ 2 := by
      intro i
      by_contra hc
      exact hgt ⟨i, by omega⟩
    rw [stepMuls, heq hall]
    rfl

/-- Claim C2: after adding the last-chosen facet's ridge contributions, the
popped combination is classified exotic exactly when some ridge-orbit
multiplicity of the updated vector exceeds 2, and then nothing is emitted and
nothing is enqueued; it is emitted as an accepted (compound-split) faceting
exactly when every multiplicity is 0 or 2; and it is classified incomplete
exactly when no multiplicity exceeds 2 but some equals 1, in which case it is
not emitted and every enqueued item merely extends it by one facet. -/
theorem c2_validity_classification (ctx : SearchCtx) (it : Item) :
    ((facetingStep ctx it).1.isSome ↔
      ∀ i : Nat, (stepMulsFull ctx it).getD i 0 = 0 ∨
        (stepMulsFull ctx it).getD i 0 = 2) ∧
    ((facetingStep ctx it).1.isSome →
      (facetingStep ctx it).1 = some (ctx.split it.facets)) ∧
    ((classify (stepMuls ctx it) = 1 ↔
      ∃ i : Nat, (stepMulsFull ctx it).getD i 0 > 2) ∧
     (classify (stepMuls ctx it) = 1 → facetingStep ctx it = (none, []))) ∧
    ((classify (stepMuls ctx it) = 2 ↔
      (¬ ∃ i : Nat, (stepMulsFull ctx it).getD i 0 > 2) ∧
      ∃ i : Nat, (stepMulsFull ctx it).getD i 0 = 1) ∧
     (classify (stepMuls ctx it) = 2 →
      (facetingStep ctx it).1 = none ∧
      ∀ it' ∈ (facetingStep ctx it).2,
        ∃ p : Pair, it'.facets = it.facets ++ [p])) := by
  have hfull := classifyLoop_spec (stepMulsFull ctx it) 0 (Or.inl rfl)
  have hbe := classify_break_eq_full ctx it
  have hone : classify (stepMuls ctx it) = 1 ↔
      ∃ i : Nat, (stepMulsFull ctx it).getD i 0 > 2 := by
    rw [hbe, classify, hfull.1, ← exists_getD_iff_mem (by omega)]
  have hzero : classify (stepMuls ctx it) = 0 ↔
      ∀ i : Nat, (stepMulsFull ctx it).getD i 0 = 0 ∨
        (stepMulsFull ctx it).getD i 0 = 2 := by
    rw [hbe, classify, hfull.2.1]
    rw [← forall_getD_iff_mem (by omega) (stepMulsFull ctx it),
      ← forall_getD_iff_mem (P := fun x => x ≠ 1) (by omega) (stepMulsFull ctx it)]
    constructor
    · rintro ⟨h2, _, h1⟩ i
      have := h2 i
      have := h1 i
      omega
    · intro h
      refine ⟨fun i => by have := h i; omega, rfl, fun i => by have := h i; omega⟩
  have htwo : classify (stepMuls ctx it) = 2 ↔
      (¬ ∃ i : Nat, (stepMulsFull ctx it).getD i 0 > 2) ∧
      ∃ i : Nat, (stepMulsFull ctx it).getD i 0 = 1 := by
    rw [hbe, classify, hfull.2.2]
    rw [← exists_getD_iff_mem (P := fun x => x = 1) (by omega) (stepMulsFull ctx it),
      ← forall_getD_iff_mem (P := fun x => ¬ x > 2) (by omega) (stepMulsFull ctx it)]
    constructor
    · rintro ⟨h2, hor⟩
      rcases hor with h | h
      · omega
      · exact ⟨fun ⟨i, hi⟩ => (h2 i) hi, h⟩
    · rintro ⟨h2, h1⟩
      exact ⟨fun i hi => h2 ⟨i, hi⟩, Or.inr h1⟩
  have hemit : (facetingStep ctx it).1.isSome ↔ classify (stepMuls ctx it) = 0 := by
    rw [facetingStep]
    match hc : classify (stepMuls ctx it) with
    | 0 => simp
    | 1 => simp
    | n + 2 => simp
  refine ⟨?_, ?_, ⟨hone, ?_⟩, ⟨htwo, ?_⟩⟩
  · rw [hemit, hzero]
  · intro hsome
    have hc := hemit.mp hsome
    rw [facetingStep, hc]
  · intro hc
    rw [facetingStep, hc]
  · intro hc
    rw [facetingStep, hc]
    refine ⟨rfl, ?_⟩
    intro it' hit'
    simp only at hit'
    by_cases hn : nobleOk ctx it = true
    · rw [if_pos hn] at hit'
      rw [incompleteExts] at hit'
      match hfi : (stepMuls ctx it).findIdx? (fun r => r == 1) with
      | none =>
        rw [hfi] at hit'
        simp at hit'
      | some g =>
        rw [hfi] at hit'
        obtain ⟨p, _, hp2⟩ := List.mem_map.mp hit'
        exact ⟨p, by rw [← hp2]⟩
    · rw [if_neg hn] at hit'
      simp at hit'

theorem findIdx?_one_isSome {l : List Nat} {x : Nat} (hx : x ∈ l)
    (hp : x = 1) : l.findIdx? (fun r => r == 1) ≠ none := by
  intro h
  have := List.findIdx?_eq_none_iff.mp h x hx
  rw [hp] at this
  simp at this

theorem headD_append (l : List Pair) (p : Pair) (d : Pair) (h : l ≠ []) :
    (l ++ [p]).headD d = l.headD d := by
  cases l with
  | nil => exact absurd rfl h
  | cons x t => rfl

/-- Claim C5: from a state classified incomplete (with extensions not
suppressed by the noble cap), the search enqueues exactly the `(hyperplane,
facet)` pairs listed in the first open (multiplicity-1) ridge orbit's
multiplicity-1 index, minus pairs whose hyperplane orbit is already used in
the combination and minus pairs with hyperplane index below the branch
minimum; each is appended to the combination with the minimum kept.  No other
extension is enqueued from an incomplete state. -/
theorem c5_incomplete_extensions (ctx : SearchCtx) (it : Item)
    (hones : ∀ l ∈ ctx.ones, List.Chain' (fun a b : Pair => a.1 ≤ b.1) l)
    (hne : it.facets ≠ [])
    (hhead : (it.facets.headD (0, 0)).1 ≤ it.minHp)
    (hmin : it.minHp ∈ it.facets.map Prod.fst)
    (hinc : classify (stepMuls ctx it) = 2)
    (hnoble : nobleOk ctx it = true) :
    ∃ g : Nat, (stepMuls ctx it).findIdx? (fun r => r == 1) = some g ∧
      (facetingStep ctx it).2 =
        ((ctx.ones.getD g []).filter (fun p =>
          decide (it.minHp ≤ p.1) &&
            !(it.facets.map Prod.fst).contains p.1)).map
          (fun p => Item.mk (it.facets ++ [p]) it.minHp (stepMuls ctx it)) := by
  have hex1 : ∃ x ∈ stepMuls ctx it, x = 1 := by
    have := (classifyLoop_spec (stepMuls ctx it) 0 (Or.inl rfl)).2.2.mp hinc
    rcases this.2 with h | h
    · omega
    · exact h
  obtain ⟨x, hxmem, hx1⟩ := hex1
  obtain ⟨g, hg⟩ : ∃ g, (stepMuls ctx it).findIdx? (fun r => r == 1) = some g := by
    match hf : (stepMuls ctx it).findIdx? (fun r => r == 1) with
    | some g => exact ⟨g, rfl⟩
    | none => exact absurd hf (findIdx?_one_isSome hxmem hx1)
  refine ⟨g, hg, ?_⟩
  have hstep : (facetingStep ctx it).2 = incompleteExts ctx it (stepMuls ctx it) := by
    rw [facetingStep, hinc]
    simp only [hnoble, if_true]
  rw [hstep]
  simp only [incompleteExts, hg]
  have hchain : List.Chain' (fun a b : Pair => a.1 ≤ b.1) (ctx.ones.getD g []) := by
    rcases Nat.lt_or_ge g ctx.ones.length with hlt | hge
    · refine hones _ ?_
      rw [List.getD_eq_getElem _ _ hlt]
      exact List.getElem_mem hlt
    · rw [List.getD_eq_getElem?_getD, List.getElem?_eq_none (by omega)]
      exact List.chain'_nil
  rw [drop_binary_eq_filter (ctx.ones.getD g []) it.minHp hchain,
    List.filter_filter]
  congr 1
  refine List.filter_congr ?_
  intro p _
  obtain ⟨h0, t, hft⟩ : ∃ h0 t, it.facets = h0 :: t := by
    cases hc : it.facets with
    | nil => exact absurd hc hne
    | cons h0 t => exact ⟨h0, t, rfl⟩
  rw [hft] at hhead hmin ⊢
  simp only [List.headD_cons] at hhead
  simp only [List.map_cons, List.mem_cons] at hmin
  simp only [usedHps, List.tail_cons, List.map_cons, List.contains_cons]
  rcases Nat.lt_or_ge it.minHp p.1 with hlt | hge
  · have hne0 : (p.1 == h0.1) = false := by
      simp
      omega
    simp [hne0, hlt, Nat.le_of_lt hlt]
  · have hnlt : (decide (it.minHp < p.1)) = false := by
      simp
      omega
    rw [hnlt]
    simp only [Bool.and_false, Bool.false_eq]
    by_cases hle : it.minHp ≤ p.1
    · have hpeq : p.1 = it.minHp := by omega
      rcases hmin with h | h
      · have : (p.1 == h0.1) = true := by
          simp
          omega
        simp [this]
      · have hcont : (List.map Prod.fst t).contains p.1 = true := by
          rw [hpeq]
          simpa using h
        simp [hcont]
        intro _ _
        obtain ⟨q, hq, hq1⟩ := List.mem_map.mp h
        exact ⟨q.2, by rw [hpeq, ← hq1]; exact hq⟩
    · simp [hle]

/-- The search context used by witnesses: two hyperplane orbits with one
facet candidate each, both touching the single global ridge orbit with
multiplicity 1 (a dyad-style closing pair). -/
def witnessCtx : SearchCtx :=
  { ridgeIdxs := [[[(0, 0)]], [[(0, 0)]]],
    ridgeIdxOrbits := [[[0]], [[0]]],
    ridgeMuls := [[[1]], [[1]]],
    ones := [[(0, 0), (1, 0)]],
    numOrbits := 1,
    includeCompounds := true,
    noble := none,
    split := fun l => l }

/-- The singleton combination holding the first facet of hyperplane 0. -/
def witnessItem : Item := ⟨[(0, 0)], 0, [0]⟩

theorem witnessCtx_ones_sorted :
    ∀ l ∈ witnessCtx.ones, List.Chain' (fun a b : Pair => a.1 ≤ b.1) l := by
  intro l hl
  simp [witnessCtx] at hl
  subst hl
  rw [List.chain'_cons]
  exact ⟨by decide, List.chain'_singleton _⟩

/-- Witness for C5: on the dyad-style context the seed `(0,0)` is incomplete
(its single ridge orbit sits at multiplicity 1) and the only enqueued
extension is `(1,0)`, taken from the open ridge orbit's multiplicity-1 list. -/
theorem c5_incomplete_extensions_witness :
    ∃ g : Nat,
      (stepMuls witnessCtx witnessItem).findIdx? (fun r => r == 1) = some g ∧
      (facetingStep witnessCtx witnessItem).2 =
        ((witnessCtx.ones.getD g []).filter (fun p =>
          decide (witnessItem.minHp ≤ p.1) &&
            !(witnessItem.facets.map Prod.fst).contains p.1)).map
          (fun p => Item.mk (witnessItem.facets ++ [p]) witnessItem.minHp
            (stepMuls witnessCtx witnessItem)) :=
  c5_incomplete_extensions witnessCtx witnessItem witnessCtx_ones_sorted
    (by decide) (by decide) (by decide) (by decide) (by decide)

theorem mem_drop_range {n k x : Nat} (h : x ∈ (List.range n).drop k) :
    k ≤ x ∧ x < n := by
  obtain ⟨j, hj⟩ := List.mem_iff_getElem?.mp h
  rw [List.getElem?_drop] at hj
  rcases Nat.lt_or_ge (k + j) n with hlt | hge
  · rw [List.getElem?_range hlt] at hj
    obtain rfl := Option.some.inj hj
    omega
  · rw [List.getElem?_eq_none (by simpa using hge)] at hj
    exact Option.noConfusion hj

/-- Characterization of the members of the valid-branch extension list. -/
theorem mem_validExts {ctx : SearchCtx} {it : Item} {newMuls : List Nat}
    {it' : Item} (h : it' ∈ validExts ctx it newMuls) :
    ∃ hp f : Nat, it' = ⟨it.facets ++ [(hp, f)], hp, newMuls⟩ ∧
      it.minHp < hp ∧ hp < ctx.ridgeIdxs.length ∧ f < numFacets ctx hp ∧
      (usedHps it.facets).contains hp = false := by
  rw [validExts] at h
  obtain ⟨inner, hinner, hit⟩ := List.mem_flatten.mp h
  obtain ⟨hp, hhp, hinner2⟩ := List.mem_map.mp hinner
  obtain ⟨hhp1, hhp2⟩ := List.mem_filter.mp hhp
  rw [← hinner2] at hit
  obtain ⟨f, hf, hit2⟩ := List.mem_map.mp hit
  obtain ⟨hdrop, hrange⟩ := mem_drop_range hhp1
  refine ⟨hp, f, hit2.symm, by omega, hrange, List.mem_range.mp hf, ?_⟩
  simpa using hhp2

/-- Characterization of the members of the incomplete-branch extension list. -/
theorem mem_incompleteExts {ctx : SearchCtx} {it : Item} {newMuls : List Nat}
    {it' : Item}
    (hones : ∀ l ∈ ctx.ones, List.Chain' (fun a b : Pair => a.1 ≤ b.1) l)
    (h : it' ∈ incompleteExts ctx it newMuls) :
    ∃ (g : Nat) (p : Pair), newMuls.findIdx? (fun r => r == 1) = some g ∧
      p ∈ ctx.ones.getD g [] ∧
      it' = ⟨it.facets ++ [p], it.minHp, newMuls⟩ ∧ it.minHp < p.1 ∧
      (usedHps it.facets).contains p.1 = false := by
  rw [incompleteExts] at h
  match hfi : newMuls.findIdx? (fun r => r == 1) with
  | none =>
    rw [hfi] at h
    simp at h
  | some g =>
    rw [hfi] at h
    have hchain : List.Chain' (fun a b : Pair => a.1 ≤ b.1) (ctx.ones.getD g []) := by
      rcases Nat.lt_or_ge g ctx.ones.length with hlt | hge
      · refine hones _ ?_
        rw [List.getD_eq_getElem _ _ hlt]
        exact List.getElem_mem hlt
      · rw [List.getD_eq_getElem?_getD, List.getElem?_eq_none (by omega)]
        exact List.chain'_nil
    obtain ⟨p, hp, hit⟩ := List.mem_map.mp h
    obtain ⟨hp1, hp2⟩ := List.mem_filter.mp hp
    rw [drop_binary_eq_filter _ _ hchain] at hp1
    obtain ⟨hp3, hp4⟩ := List.mem_filter.mp hp1
    refine ⟨g, p, rfl, hp3, hit.symm, by simpa using hp4, by simpa using hp2⟩

/-- The structural invariant of every queue entry: a nonempty facet list whose
first hyperplane bounds the branch minimum from below, whose minimum is one of
its own hyperplanes, and whose hyperplane indices are pairwise distinct. -/
def ItemInv (it : Item) : Prop :=
  it.facets ≠ [] ∧ (it.facets.headD (0, 0)).1 ≤ it.minHp ∧
  it.minHp ∈ it.facets.map Prod.fst ∧ (it.facets.map Prod.fst).Nodup

/-- The combinations that can ever enter the search queue: the initial
singletons, and every extension pushed by a step from a reachable
combination. -/
inductive Reachable (ctx : SearchCtx) : Item → Prop where
  | seed : ∀ hp f : Nat, hp < ctx.ridgeIdxs.length → f < numFacets ctx hp →
      Reachable ctx ⟨[(hp, f)], hp, List.replicate ctx.numOrbits 0⟩
  | ext : ∀ it it' : Item, Reachable ctx it → it' ∈ (facetingStep ctx it).2 →
      Reachable ctx it'

/-- A step's pushes preserve the queue-entry invariant. -/
theorem step_preserves_inv {ctx : SearchCtx}
    (hones : ∀ l ∈ ctx.ones, List.Chain' (fun a b : Pair => a.1 ≤ b.1) l)
    {it it' : Item} (hinv : ItemInv it)
    (h : it' ∈ (facetingStep ctx it).2) : ItemInv it' := by
  obtain ⟨hne, hhead, hmin, hnodup⟩ := hinv
  obtain ⟨h0, t, hft⟩ : ∃ h0 t, it.facets = h0 :: t := by
    cases hc : it.facets with
    | nil => exact absurd hc hne
    | cons h0 t => exact ⟨h0, t, rfl⟩
  have hin : (∃ hp f : Nat, it'.facets = it.facets ++ [(hp, f)] ∧
      it'.minHp = hp ∧ it.minHp < hp ∧
      (usedHps it.facets).contains hp = false) ∨
      (∃ p : Pair, it'.facets = it.facets ++ [p] ∧ it'.minHp = it.minHp ∧
      it.minHp < p.1 ∧ (usedHps it.facets).contains p.1 = false) := by
    rw [facetingStep] at h
    match hc : classify (stepMuls ctx it) with
    | 0 =>
      rw [hc] at h
      simp only at h
      by_cases hn : nobleOk ctx it = true
      · rw [if_pos hn] at h
        by_cases hic : ctx.includeCompounds = true
        · rw [if_pos hic] at h
          obtain ⟨hp, f, hit, hlt, _, _, hused⟩ := mem_validExts h
          exact Or.inl ⟨hp, f, by rw [hit], by rw [hit], hlt, hused⟩
        · rw [if_neg hic] at h
          simp at h
      · rw [if_neg hn] at h
        simp at h
    | 1 =>
      rw [hc] at h
      simp at h
    | n + 2 =>
      rw [hc] at h
      simp only at h
      by_cases hn : nobleOk ctx it = true
      · rw [if_pos hn] at h
        obtain ⟨g, p, _, _, hit, hlt, hused⟩ := mem_incompleteExts hones h
        exact Or.inr ⟨p, by rw [hit], by rw [hit], hlt, hused⟩
      · rw [if_neg hn] at h
        simp at h
  have husedlem : ∀ q : Nat, (usedHps it.facets).contains q = false →
      it.minHp < q → q ∉ it.facets.map Prod.fst := by
    intro q hq hlt hqmem
    rw [hft] at hqmem
    simp only [List.map_cons, List.mem_cons] at hqmem
    rcases hqmem with hq0 | hqt
    · rw [hft] at hhead
      simp only [List.headD_cons] at hhead
      omega
    · rw [hft] at hq
      simp only [usedHps, List.tail_cons] at hq
      have hct : (t.map Prod.fst).contains q = true := by simpa using hqt
      rw [hct] at hq
      exact Bool.noConfusion hq
  rcases hin with ⟨hp, f, hfac, hm, hlt, hused⟩ | ⟨p, hfac, hm, hlt, hused⟩
  · refine ⟨by rw [hfac]; simp, ?_, ?_, ?_⟩
    · rw [hfac, headD_append _ _ _ hne, hm]
      omega
    · rw [hfac, hm, List.map_append]
      simp
    · rw [hfac, List.map_append]
      have : hp ∉ it.facets.map Prod.fst := husedlem hp hused hlt
      simp only [List.map_cons, List.map_nil]
      exact List.Nodup.append hnodup (List.nodup_singleton _)
        (by intro a ha hb; simp at hb; subst hb; exact this ha)
  · refine ⟨by rw [hfac]; simp, ?_, ?_, ?_⟩
    · rw [hfac, headD_append _ _ _ hne, hm]
      exact hhead
    · rw [hfac, hm, List.map_append]
      exact List.mem_append_left _ hmin
    · rw [hfac, List.map_append]
      have : p.1 ∉ it.facets.map Prod.fst := husedlem p.1 hused hlt
      simp only [List.map_cons, List.map_nil]
      exact List.Nodup.append hnodup (List.nodup_singleton _)
        (by intro a ha hb; simp at hb; subst hb; exact this ha)

/-- Characterization of the initial queue: exactly the singleton
combinations, one per `(hyperplane, facet)` pair in range. -/
theorem mem_initQueue {ctx : SearchCtx} {it : Item} (h : it ∈ initQueue ctx) :
    ∃ hp f : Nat, hp < ctx.ridgeIdxs.length ∧ f < numFacets ctx hp ∧
      it = ⟨[(hp, f)], hp, List.replicate ctx.numOrbits 0⟩ := by
  rw [initQueue] at h
  obtain ⟨inner, hinner, hit⟩ := List.mem_flatten.mp h
  obtain ⟨hp, hhp, rfl⟩ := List.mem_map.mp hinner
  obtain ⟨f, hf, hit2⟩ := List.mem_map.mp hit
  exact ⟨hp, f, List.mem_range.mp hhp, List.mem_range.mp hf, hit2.symm⟩

/-- Every reachable combination satisfies the queue-entry invariant; in
particular its hyperplane indices are pairwise distinct. -/
theorem reachable_inv {ctx : SearchCtx}
    (hones : ∀ l ∈ ctx.ones, List.Chain' (fun a b : Pair => a.1 ≤ b.1) l)
    {it : Item} (h : Reachable ctx it) : ItemInv it := by
  induction h with
  | seed hp f h1 h2 => exact ⟨by simp, by simp, by simp, by simp⟩
  | ext a b hr hstep ih => exact step_preserves_inv hones ih hstep

theorem runSearchItems_nil (ctx : SearchCtx) (fuel : Nat) (acc : List Item) :
    runSearchItems ctx fuel [] acc = (acc, true) := by
  cases fuel with
  | zero => rfl
  | succ n => rfl

theorem runSearchItems_cons (ctx : SearchCtx) (fuel : Nat) (x : Item)
    (rest acc : List Item) :
    runSearchItems ctx (fuel + 1) (x :: rest) acc =
      runSearchItems ctx fuel ((facetingStep ctx x).2.reverse ++ rest)
        (if (facetingStep ctx x).1.isSome then acc ++ [x] else acc) := rfl

/-- Soundness of the search loop: if every queued and every already-accepted
combination is reachable, so is every combination in the final accepted
list. -/
theorem runSearch_sound (ctx : SearchCtx) :
    ∀ (fuel : Nat) (queue acc : List Item),
      (∀ it ∈ queue, Reachable ctx it) → (∀ it ∈ acc, Reachable ctx it) →
      ∀ it ∈ (runSearchItems ctx fuel queue acc).1, Reachable ctx it := by
  intro fuel
  induction fuel with
  | zero =>
    intro queue acc hq ha it hit
    cases queue with
    | nil =>
      rw [runSearchItems_nil] at hit
      exact ha it hit
    | cons x rest => exact ha it hit
  | succ n ih =>
    intro queue acc hq ha it hit
    cases queue with
    | nil =>
      rw [runSearchItems_nil] at hit
      exact ha it hit
    | cons x rest =>
      rw [runSearchItems_cons] at hit
      refine ih _ _ ?_ ?_ it hit
      · intro y hy
        rcases List.mem_append.mp hy with hy1 | hy2
        · exact Reachable.ext x y (hq x (List.mem_cons_self x rest))
            (List.mem_reverse.mp hy1)
        · exact hq y (List.mem_cons_of_mem x hy2)
      · intro y hy
        by_cases hc : (facetingStep ctx x).1.isSome = true
        · rw [if_pos hc] at hy
          rcases List.mem_append.mp hy with hy1 | hy2
          · exact ha y hy1
          · obtain rfl : y = x := by simpa using hy2
            exact hq y (List.mem_cons_self y rest)
        · rw [if_neg hc] at hy
          exact ha y hy

/-- Claim C10: every combination ever enqueued by the facet-combination
search — the initial singletons and every extension pushed from a valid or
incomplete state, i.e. every reachable combination — has pairwise-distinct
hyperplane-orbit indices among its `(hyperplane, facet)` pairs, and hence so
has every accepted combination (the facetings before compound splitting),
for any `ones` table sorted by hyperplane index as the source builds it. -/
theorem c10_distinct_hyperplanes (ctx : SearchCtx)
    (hones : ∀ l ∈ ctx.ones, List.Chain' (fun a b : Pair => a.1 ≤ b.1) l) :
    (∀ it ∈ initQueue ctx, Reachable ctx it) ∧
    (∀ it : Item, Reachable ctx it → (it.facets.map Prod.fst).Nodup) ∧
    (∀ fuel : Nat,
      ∀ it ∈ (runSearchItems ctx fuel (initQueue ctx).reverse []).1,
        Reachable ctx it ∧ (it.facets.map Prod.fst).Nodup) := by
  have hseed : ∀ it ∈ initQueue ctx, Reachable ctx it := by
    intro it hit
    obtain ⟨hp, f, h1, h2, rfl⟩ := mem_initQueue hit
    exact Reachable.seed hp f h1 h2
  have hnd : ∀ it : Item, Reachable ctx it → (it.facets.map Prod.fst).Nodup :=
    fun it h => (reachable_inv hones h).2.2.2
  refine ⟨hseed, hnd, ?_⟩
  intro fuel it hit
  have hr : Reachable ctx it := by
    refine runSearch_sound ctx fuel _ [] ?_ (by simp) it hit
    intro y hy
    exact hseed y (List.mem_reverse.mp hy)
  exact ⟨hr, hnd it hr⟩

/-- Witness for C10 at the dyad-style context. -/
theorem c10_distinct_hyperplanes_witness :
    (∀ it ∈ initQueue witnessCtx, Reachable witnessCtx it) ∧
    (∀ it : Item, Reachable witnessCtx it → (it.facets.map Prod.fst).Nodup) ∧
    (∀ fuel : Nat,
      ∀ it ∈ (runSearchItems witnessCtx fuel (initQueue witnessCtx).reverse []).1,
        Reachable witnessCtx it ∧ (it.facets.map Prod.fst).Nodup) :=
  c10_distinct_hyperplanes witnessCtx witnessCtx_ones_sorted

/-- The `ones` table is sorted by hyperplane index, as the source builds it
by iterating over hyperplane orbits in increasing order. -/
abbrev OnesSorted (ctx : SearchCtx) : Prop :=
  ∀ l ∈ ctx.ones, List.Chain' (fun a b : Pair => a.1 ≤ b.1) l

/-- `possible_facets[p.0][p.1].1`: the local ridge occurrences of facet `p`. -/
def ridgesOf (ctx : SearchCtx) (p : Pair) : List (Nat × Nat) :=
  (ctx.ridgeIdxs.getD p.1 []).getD p.2 []

/-- The total multiplicity facet `p` adds to ridge orbit `g`: each ridge
occurrence of `p` with global orbit `g` adds `ridge_muls[p.0][p.1][g]`. -/
def contrib (ctx : SearchCtx) (p : Pair) (g : Nat) : Nat :=
  ((ridgesOf ctx p).countP (fun ri => orbitOf ctx p.1 ri == g)) *
    mulOf ctx p.1 p.2 g

/-- The ridge-orbit multiplicity vector accumulated by a whole facet list,
starting from all zeros (the no-early-break reference computation). -/
def fullMuls (ctx : SearchCtx) (l : List Pair) : List Nat :=
  l.foldl (fun muls p => addMulsFull ctx p.1 p.2 (ridgesOf ctx p) muls)
    (List.replicate ctx.numOrbits 0)

/-- The branch minimum recomputed from the facet list alone, replaying the
valid/incomplete branch decisions of the search; `P` is the processed
prefix and `mn` the minimum so far. -/
def minTraceAux (ctx : SearchCtx) : List Pair → Nat → List Pair → Nat
  | _, mn, [] => mn
  | P, mn, p :: rest =>
    minTraceAux ctx (P ++ [p])
      (if classify (fullMuls ctx P) = 0 then p.1 else mn) rest

/-- The branch minimum of the (unique) queue entry holding a facet list. -/
def minTrace (ctx : SearchCtx) : List Pair → Nat
  | [] => 0
  | x :: r => minTraceAux ctx [x] x.1 r

/-- The queue entry determined by a facet list: the facets themselves, the
replayed branch minimum, and the multiplicity vector of the proper prefix. -/
def itemAt (ctx : SearchCtx) (l : List Pair) : Item :=
  ⟨l, minTrace ctx l, fullMuls ctx l.dropLast⟩

theorem addMulsFull_length (ctx : SearchCtx) (hp f : Nat) :
    ∀ (ris : List (Nat × Nat)) (muls : List Nat),
    (addMulsFull ctx hp f ris muls).length = muls.length := by
  intro ris
  induction ris with
  | nil => intro muls; rw [addMulsFull]
  | cons ri rest ih =>
    intro muls
    rw [addMulsFull, ih, List.length_set]

theorem addMulsFull_getD (ctx : SearchCtx) (hp f : Nat) :
    ∀ (ris : List (Nat × Nat)) (muls : List Nat) (g : Nat),
    (addMulsFull ctx hp f ris muls).getD g 0 = muls.getD g 0 +
      if g < muls.length then
        (ris.countP (fun ri => orbitOf ctx hp ri == g)) * mulOf ctx hp f g
      else 0 := by
  intro ris
  induction ris with
  | nil =>
    intro muls g
    rw [addMulsFull]
    simp [List.countP_nil]
  | cons ri rest ih =>
    intro muls g
    rw [addMulsFull, ih, List.countP_cons]
    rw [List.length_set, getD_set]
    by_cases hGg : orbitOf ctx hp ri = g
    · subst hGg
      by_cases hlen : orbitOf ctx hp ri < muls.length
      · simp [hlen]
        ring
      · simp [hlen]
    · by_cases hlen : g < muls.length
      · simp [hGg, hlen]
      · simp [hGg, hlen]

theorem fullMuls_fold_getD (ctx : SearchCtx) :
    ∀ (l : List Pair) (muls : List Nat) (g : Nat),
    (l.foldl (fun muls p => addMulsFull ctx p.1 p.2 (ridgesOf ctx p) muls)
      muls).getD g 0 =
      muls.getD g 0 + if g < muls.length then
        (l.map (fun p => contrib ctx p g)).sum else 0 := by
  intro l
  induction l with
  | nil => intro muls g; simp
  | cons p rest ih =>
    intro muls g
    rw [List.foldl_cons, ih, addMulsFull_getD, addMulsFull_length]
    rw [List.map_cons, List.sum_cons, contrib]
    by_cases hlen : g < muls.length
    · rw [if_pos hlen, if_pos hlen, if_pos hlen]
      ring
    · rw [if_neg hlen, if_neg hlen, if_neg hlen]

theorem fullMuls_fold_length (ctx : SearchCtx) :
    ∀ (l : List Pair) (muls : List Nat),
    (l.foldl (fun muls p => addMulsFull ctx p.1 p.2 (ridgesOf ctx p) muls)
      muls).length = muls.length := by
  intro l
  induction l with
  | nil => intro muls; rfl
  | cons p rest ih =>
    intro muls
    rw [List.foldl_cons, ih, addMulsFull_length]

theorem fullMuls_length (ctx : SearchCtx) (l : List Pair) :
    (fullMuls ctx l).length = ctx.numOrbits := by
  rw [fullMuls, fullMuls_fold_length, List.length_replicate]

theorem fullMuls_getD (ctx : SearchCtx) (l : List Pair) (g : Nat) :
    (fullMuls ctx l).getD g 0 =
      if g < ctx.numOrbits then (l.map (fun p => contrib ctx p g)).sum
      else 0 := by
  rw [fullMuls, fullMuls_fold_getD, List.length_replicate]
  have hz : (List.replicate ctx.numOrbits (0 : Nat)).getD g 0 = 0 := by
    rw [List.getD_eq_getElem?_getD, List.getElem?_replicate]
    by_cases h : g < ctx.numOrbits
    · simp [h]
    · simp [h]
  rw [hz, Nat.zero_add]

theorem fullMuls_concat (ctx : SearchCtx) (l : List Pair) (p : Pair) :
    fullMuls ctx (l ++ [p]) =
      addMulsFull ctx p.1 p.2 (ridgesOf ctx p) (fullMuls ctx l) := by
  rw [fullMuls, List.foldl_append]
  rfl

theorem classify_one_of_full_gt (ctx : SearchCtx) (it : Item)
    (h : ∃ i : Nat, (stepMulsFull ctx it).getD i 0 > 2) :
    classify (stepMuls ctx it) = 1 := by
  obtain ⟨hiff, _⟩ := addMulsBreak_gt2_iff ctx (lastFacet it).1 (lastFacet it).2
    (lastRidgeIdxs ctx it) it.cache
  rw [classify]
  refine (classifyLoop_spec _ 0 (Or.inl rfl)).1.mpr ?_
  rw [← exists_getD_iff_mem (by omega)]
  exact hiff.mpr h

theorem stepMuls_eq_full_of_ne_one (ctx : SearchCtx) (it : Item)
    (h : classify (stepMuls ctx it) ≠ 1) :
    stepMuls ctx it = stepMulsFull ctx it := by
  obtain ⟨_, heq⟩ := addMulsBreak_gt2_iff ctx (lastFacet it).1 (lastFacet it).2
    (lastRidgeIdxs ctx it) it.cache
  by_cases hgt : ∃ i : Nat, (stepMulsFull ctx it).getD i 0 > 2
  · exact absurd (classify_one_of_full_gt ctx it hgt) h
  · have hall : ∀ i : Nat, (stepMulsFull ctx it).getD i 0 ≤ 2 := by
      intro i
      by_contra hc
      exact hgt ⟨i, by omega⟩
    rw [stepMuls, heq hall]
    rfl

theorem minTraceAux_concat (ctx : SearchCtx) :
    ∀ (r P : List Pair) (mn : Nat) (p : Pair),
    minTraceAux ctx P mn (r ++ [p]) =
      if classify (fullMuls ctx (P ++ r)) = 0 then p.1
      else minTraceAux ctx P mn r := by
  intro r
  induction r with
  | nil =>
    intro P mn p
    rw [List.nil_append, List.append_nil, minTraceAux, minTraceAux, minTraceAux]
  | cons q r ih =>
    intro P mn p
    rw [List.cons_append, minTraceAux, ih, minTraceAux]
    rw [List.append_assoc, List.singleton_append]

theorem minTrace_concat (ctx : SearchCtx) (x : Pair) (r : List Pair) (p : Pair) :
    minTrace ctx ((x :: r) ++ [p]) =
      if classify (fullMuls ctx (x :: r)) = 0 then p.1
      else minTrace ctx (x :: r) := by
  rw [List.cons_append, minTrace, minTraceAux_concat, minTrace,
    List.singleton_append]

/-- A step's pushes, fully characterized: the parent is not exotic, the child
appends one pair with hyperplane above the branch minimum and unused, caches
the parent's updated multiplicities, and follows the valid branch (new
minimum, parent classified valid) or the incomplete branch (kept minimum,
pair drawn from the first open ridge orbit's multiplicity-1 list). -/
theorem step_shape {ctx : SearchCtx} {it it' : Item} (hones : OnesSorted ctx)
    (h : it' ∈ (facetingStep ctx it).2) :
    classify (stepMuls ctx it) ≠ 1 ∧
    ∃ p : Pair, it'.facets = it.facets ++ [p] ∧ it'.cache = stepMuls ctx it ∧
      it.minHp < p.1 ∧ (usedHps it.facets).contains p.1 = false ∧
      it.minHp ≤ it'.minHp ∧
      ((classify (stepMuls ctx it) = 0 ∧ it'.minHp = p.1) ∨
       (2 ≤ classify (stepMuls ctx it) ∧ it'.minHp = it.minHp ∧
        ∃ g : Nat, (stepMuls ctx it).findIdx? (fun r => r == 1) = some g ∧
          p ∈ ctx.ones.getD g [])) := by
  rw [facetingStep] at h
  match hc : classify (stepMuls ctx it) with
  | 0 =>
    rw [hc] at h
    simp only at h
    by_cases hn : nobleOk ctx it = true
    · rw [if_pos hn] at h
      by_cases hic : ctx.includeCompounds = true
      · rw [if_pos hic] at h
        obtain ⟨hp, f, hit, hlt, _, _, hused⟩ := mem_validExts h
        refine ⟨by omega, (hp, f), by rw [hit], by rw [hit], hlt, hused,
          by rw [hit]; exact Nat.le_of_lt hlt, Or.inl ⟨rfl, by rw [hit]⟩⟩
      · rw [if_neg hic] at h
        simp at h
    · rw [if_neg hn] at h
      simp at h
  | 1 =>
    rw [hc] at h
    simp at h
  | n + 2 =>
    rw [hc] at h
    simp only at h
    by_cases hn : nobleOk ctx it = true
    · rw [if_pos hn] at h
      obtain ⟨g, p, hfi, hpmem, hit, hlt, hused⟩ := mem_incompleteExts hones h
      refine ⟨by omega, p, by rw [hit], by rw [hit], hlt, hused,
        by rw [hit], Or.inr ⟨by omega, by rw [hit], g, hfi, hpmem⟩⟩
    · rw [if_neg hn] at h
      simp at h

/-- Determination: a reachable queue entry's cached multiplicities are the
full multiplicity vector of its facet list minus the last facet, and its
branch minimum is the replayed minimum of its facet list. -/
theorem reachable_state {ctx : SearchCtx} (hones : OnesSorted ctx) {it : Item}
    (h : Reachable ctx it) :
    it.cache = fullMuls ctx it.facets.dropLast ∧
      it.minHp = minTrace ctx it.facets := by
  induction h with
  | seed hp f h1 h2 => exact ⟨rfl, rfl⟩
  | ext it it' hr hstep ih =>
    obtain ⟨hne1, p, hfac, hcache, hlt, hused, hmle, hbr⟩ := step_shape hones hstep
    obtain ⟨hc, hm⟩ := ih
    have hfne : it.facets ≠ [] := (reachable_inv hones hr).1
    obtain ⟨x, r, hxr⟩ : ∃ x r, it.facets = x :: r := by
      cases hfc : it.facets with
      | nil => exact absurd hfc hfne
      | cons a l => exact ⟨a, l, rfl⟩
    have hfull : stepMulsFull ctx it = fullMuls ctx it.facets := by
      have hlast : lastFacet it = r.getLastD x := by
        rw [lastFacet, hxr, List.getLastD_cons]
      have hdl : it.facets.dropLast ++ [r.getLastD x] = it.facets := by
        conv_lhs => rw [hxr]
        conv_rhs => rw [hxr]
        rw [← List.getLast_eq_getLastD x r (by simp)]
        exact List.dropLast_append_getLast (by simp)
      rw [stepMulsFull, lastRidgeIdxs, hlast, hc]
      conv_rhs => rw [← hdl]
      rw [fullMuls_concat]
      rfl
    have hclass : classify (stepMuls ctx it) = classify (fullMuls ctx it.facets) := by
      rw [classify_break_eq_full, hfull]
    have hsm : stepMuls ctx it = fullMuls ctx it.facets := by
      rw [stepMuls_eq_full_of_ne_one ctx it hne1, hfull]
    constructor
    · rw [hcache, hfac, List.dropLast_concat, hsm]
    · rw [hfac, hxr, minTrace_concat]
      rcases hbr with ⟨h0, hm'⟩ | ⟨h2, hm', _⟩
      · rw [if_pos (by rw [← hxr, ← hclass]; exact h0)]
        exact hm'
      · rw [if_neg (by rw [← hxr, ← hclass]; omega)]
        rw [hm', hm, hxr]

/-- A reachable queue entry is the one determined by its facet list. -/
theorem reachable_eq_itemAt {ctx : SearchCtx} (hones : OnesSorted ctx)
    {it : Item} (h : Reachable ctx it) : it = itemAt ctx it.facets := by
  obtain ⟨hc, hm⟩ := reachable_state hones h
  cases it with
  | mk f m c =>
    simp only [itemAt, Item.mk.injEq]
    exact ⟨trivial, hm, hc⟩

/-- Two reachable queue entries with the same facet list are equal. -/
theorem reachable_facets_inj {ctx : SearchCtx} (hones : OnesSorted ctx)
    {it1 it2 : Item} (h1 : Reachable ctx it1) (h2 : Reachable ctx it2)
    (hf : it1.facets = it2.facets) : it1 = it2 := by
  rw [reachable_eq_itemAt hones h1, reachable_eq_itemAt hones h2, hf]

theorem reachable_stepMulsFull {ctx : SearchCtx} (hones : OnesSorted ctx)
    {it : Item} (h : Reachable ctx it) :
    stepMulsFull ctx it = fullMuls ctx it.facets := by
  have hc := (reachable_state hones h).1
  have hfne : it.facets ≠ [] := (reachable_inv hones h).1
  obtain ⟨x, r, hxr⟩ : ∃ x r, it.facets = x :: r := by
    cases hfc : it.facets with
    | nil => exact absurd hfc hfne
    | cons a l => exact ⟨a, l, rfl⟩
  have hlast : lastFacet it = r.getLastD x := by
    rw [lastFacet, hxr, List.getLastD_cons]
  have hdl : it.facets.dropLast ++ [r.getLastD x] = it.facets := by
    conv_lhs => rw [hxr]
    conv_rhs => rw [hxr]
    rw [← List.getLast_eq_getLastD x r (by simp)]
    exact List.dropLast_append_getLast (by simp)
  rw [stepMulsFull, lastRidgeIdxs, hlast, hc]
  conv_rhs => rw [← hdl]
  rw [fullMuls_concat]
  rfl

theorem reachable_classify_full {ctx : SearchCtx} (hones : OnesSorted ctx)
    {it : Item} (h : Reachable ctx it) :
    classify (stepMuls ctx it) = classify (fullMuls ctx it.facets) := by
  rw [classify_break_eq_full, reachable_stepMulsFull hones h]

theorem reachable_stepMuls_eq_full {ctx : SearchCtx} (hones : OnesSorted ctx)
    {it : Item} (h : Reachable ctx it)
    (hne1 : classify (stepMuls ctx it) ≠ 1) :
    stepMuls ctx it = fullMuls ctx it.facets := by
  rw [stepMuls_eq_full_of_ne_one ctx it hne1, reachable_stepMulsFull hones h]

/-- Ordering along a trace: in a reachable combination, every facet chosen
after position `(P, x)` has a hyperplane strictly above the branch minimum
replayed at that position, and that replayed minimum never exceeds the
combination's current branch minimum. -/
theorem reachable_order {ctx : SearchCtx} (hones : OnesSorted ctx) {it : Item}
    (h : Reachable ctx it) :
    ∀ (P : List Pair) (x : Pair) (r : List Pair), it.facets = P ++ x :: r →
      (∀ q ∈ r, minTrace ctx (P ++ [x]) < q.1) ∧
      minTrace ctx (P ++ [x]) ≤ it.minHp := by
  induction h with
  | seed hp f h1 h2 =>
    intro P x r hPxr
    have hP : P = [] ∧ x = (hp, f) ∧ r = [] := by
      cases P with
      | nil =>
        have h' : (hp, f) :: ([] : List Pair) = x :: r := hPxr
        injection h' with ha hb
        exact ⟨rfl, ha.symm, hb.symm⟩
      | cons a P' =>
        have h' : (hp, f) :: ([] : List Pair) = a :: (P' ++ x :: r) := hPxr
        injection h' with ha hb
        exact absurd hb.symm (by simp)
    obtain ⟨rfl, rfl, rfl⟩ := hP
    refine ⟨by intro q hq; simp at hq, ?_⟩
    rw [List.nil_append]
    exact Nat.le_refl hp
  | ext it it' hr hstep ih =>
    intro P x r hPxr
    obtain ⟨hne1, p, hfac, hcache, hlt, hused, hmle, hbr⟩ := step_shape hones hstep
    rcases List.eq_nil_or_concat r with hrnil | ⟨r', q', hr'⟩
    · subst hrnil
      refine ⟨by intro q hq; simp at hq, ?_⟩
      have hPx : P ++ [x] = it'.facets := hPxr.symm
      rw [hPx]
      exact Nat.le_of_eq
        ((reachable_state hones (Reachable.ext it it' hr hstep)).2).symm
    · rw [hr', List.concat_eq_append] at hPxr
      have h1 : (P ++ x :: r') ++ [q'] = it.facets ++ [p] := by
        rw [← hfac, hPxr, List.append_assoc, List.cons_append]
      obtain ⟨hit, hq'⟩ := List.append_inj' h1 rfl
      have hq'p : q' = p := by injection hq' with ha _
      obtain ⟨ho, hom⟩ := ih P x r' hit.symm
      constructor
      · intro q hq
        rw [hr', List.concat_eq_append] at hq
        rcases List.mem_append.mp hq with hq1 | hq2
        · exact ho q hq1
        · have hqq : q = q' := by simpa using hq2
          rw [hqq, hq'p]
          omega
      · omega

/-- Incomplete-branch origin: if the facet at position `(P, x)` of a
reachable combination was appended to a nonempty prefix `P` that is not
classified valid, then `x` was drawn from the multiplicity-1 list of the
first open ridge orbit of `P`. -/
theorem reachable_incomplete_origin {ctx : SearchCtx} (hones : OnesSorted ctx)
    {it : Item} (h : Reachable ctx it) :
    ∀ (P : List Pair) (x : Pair) (r : List Pair), it.facets = P ++ x :: r →
      P ≠ [] → classify (fullMuls ctx P) ≠ 0 →
      ∃ g : Nat, (fullMuls ctx P).findIdx? (fun m => m == 1) = some g ∧
        x ∈ ctx.ones.getD g [] := by
  induction h with
  | seed hp f h1 h2 =>
    intro P x r hPxr hPne hcl
    exfalso
    cases P with
    | nil => exact hPne rfl
    | cons a P' =>
      have h' : (hp, f) :: ([] : List Pair) = a :: (P' ++ x :: r) := hPxr
      injection h' with ha hb
      exact absurd hb.symm (by simp)
  | ext it it' hr hstep ih =>
    intro P x r hPxr hPne hcl
    obtain ⟨hne1, p, hfac, hcache, hlt, hused, hmle, hbr⟩ := step_shape hones hstep
    rcases List.eq_nil_or_concat r with hrnil | ⟨r', q', hr'⟩
    · subst hrnil
      have h1 : P ++ [x] = it.facets ++ [p] := hPxr.symm.trans hfac
      obtain ⟨hP, hx⟩ := List.append_inj' h1 rfl
      have hx' : x = p := by injection hx with ha _
      rcases hbr with ⟨h0, _⟩ | ⟨h2', _, g, hfi, hpm⟩
      · exact absurd
          (by rw [hP, ← reachable_classify_full hones hr]; exact h0) hcl
      · refine ⟨g, ?_, by rw [hx']; exact hpm⟩
        rw [hP, ← reachable_stepMuls_eq_full hones hr hne1]
        exact hfi
    · rw [hr', List.concat_eq_append] at hPxr
      have h1 : (P ++ x :: r') ++ [q'] = it.facets ++ [p] := by
        rw [← hfac, hPxr, List.append_assoc, List.cons_append]
      obtain ⟨hit, _⟩ := List.append_inj' h1 rfl
      exact ih P x r' hit.symm hPne hcl

theorem getD_mem_of_lt {l : List Nat} {g : Nat} (h : g < l.length) :
    l.getD g 0 ∈ l := by
  rw [List.getD_eq_getElem?_getD, List.getElem?_eq_getElem h]
  exact List.getElem_mem h

theorem classify_zero_getD {l : List Nat} (h : classify l = 0) {g : Nat}
    (hg : g < l.length) : l.getD g 0 ≤ 2 ∧ l.getD g 0 ≠ 1 := by
  have hspec := (classifyLoop_spec l 0 (Or.inl rfl)).2.1.mp h
  have hm := getD_mem_of_lt hg
  exact ⟨by have := hspec.1 _ hm; omega, hspec.2.2 _ hm⟩

theorem findIdx?_some_spec {l : List Nat} {g : Nat}
    (h : l.findIdx? (fun r => r == 1) = some g) :
    g < l.length ∧ l.getD g 0 = 1 := by
  induction l generalizing g with
  | nil => simp at h
  | cons a l ih =>
    rw [List.findIdx?_cons] at h
    by_cases hpa : (a == 1) = true
    · rw [if_pos hpa] at h
      obtain rfl := Option.some.inj h
      refine ⟨by simp, ?_⟩
      have : a = 1 := by simpa using hpa
      simpa using this
    · rw [if_neg hpa, List.findIdx?_succ] at h
      match hfi : l.findIdx? (fun r => r == 1) with
      | none =>
        rw [hfi] at h
        simp at h
      | some g' =>
        rw [hfi] at h
        simp only [Option.map_some'] at h
        obtain rfl := Option.some.inj h
        obtain ⟨hg1, hg2⟩ := ih hfi
        exact ⟨by simpa using hg1, by simpa using hg2⟩

/-- Two valid reachable combinations whose facet lists extend a common
prefix by permutation-equal remainders have equal remainders. -/
theorem accepted_perm_unique_aux {ctx : SearchCtx} (hones : OnesSorted ctx)
    (hcontrib : ∀ g : Nat, ∀ p ∈ ctx.ones.getD g [], 1 ≤ contrib ctx p g) :
    ∀ (r1 r2 P : List Pair) (it1 it2 : Item),
      Reachable ctx it1 → Reachable ctx it2 →
      classify (stepMuls ctx it1) = 0 → classify (stepMuls ctx it2) = 0 →
      it1.facets = P ++ r1 → it2.facets = P ++ r2 → r1.Perm r2 → r1 = r2 := by
  intro r1
  induction r1 with
  | nil =>
    intro r2 P it1 it2 h1 h2 hc1 hc2 hf1 hf2 hperm
    exact (List.Perm.eq_nil hperm.symm).symm
  | cons x1 r1' ih =>
    intro r2 P it1 it2 h1 h2 hc1 hc2 hf1 hf2 hperm
    obtain ⟨x2, r2', rfl⟩ : ∃ x2 r2', r2 = x2 :: r2' := by
      cases r2 with
      | nil => exact absurd hperm.eq_nil (by simp)
      | cons a b => exact ⟨a, b, rfl⟩
    have hx : x1 = x2 := by
      by_cases hP : P = []
      · subst hP
        rw [List.nil_append] at hf1 hf2
        have ho1 := (reachable_order hones h1 [] x1 r1'
          (by rw [hf1, List.nil_append])).1
        have ho2 := (reachable_order hones h2 [] x2 r2'
          (by rw [hf2, List.nil_append])).1
        by_contra hne
        have hx2r : x2 ∈ r1' := by
          have hx2m : x2 ∈ x1 :: r1' :=
            hperm.mem_iff.mpr (List.mem_cons_self _ _)
          rcases List.mem_cons.mp hx2m with hh | hh
          · exact absurd hh.symm hne
          · exact hh
        have hx1r : x1 ∈ r2' := by
          have hx1m : x1 ∈ x2 :: r2' :=
            hperm.mem_iff.mp (List.mem_cons_self _ _)
          rcases List.mem_cons.mp hx1m with hh | hh
          · exact absurd hh hne
          · exact hh
        have l1 := ho1 x2 hx2r
        have l2 := ho2 x1 hx1r
        rw [List.nil_append] at l1 l2
        have e1 : minTrace ctx [x1] = x1.1 := rfl
        have e2 : minTrace ctx [x2] = x2.1 := rfl
        rw [e1] at l1
        rw [e2] at l2
        omega
      · by_cases hcl : classify (fullMuls ctx P) = 0
        · obtain ⟨y, P', rfl⟩ : ∃ y P', P = y :: P' := by
            cases P with
            | nil => exact absurd rfl hP
            | cons a b => exact ⟨a, b, rfl⟩
          have hmt1 : minTrace ctx ((y :: P') ++ [x1]) = x1.1 := by
            rw [minTrace_concat, if_pos hcl]
          have hmt2 : minTrace ctx ((y :: P') ++ [x2]) = x2.1 := by
            rw [minTrace_concat, if_pos hcl]
          have ho1 := (reachable_order hones h1 (y :: P') x1 r1' hf1).1
          have ho2 := (reachable_order hones h2 (y :: P') x2 r2' hf2).1
          by_contra hne
          have hx2r : x2 ∈ r1' := by
            have hx2m : x2 ∈ x1 :: r1' :=
              hperm.mem_iff.mpr (List.mem_cons_self _ _)
            rcases List.mem_cons.mp hx2m with hh | hh
            · exact absurd hh.symm hne
            · exact hh
          have hx1r : x1 ∈ r2' := by
            have hx1m : x1 ∈ x2 :: r2' :=
              hperm.mem_iff.mp (List.mem_cons_self _ _)
            rcases List.mem_cons.mp hx1m with hh | hh
            · exact absurd hh hne
            · exact hh
          have l1 := ho1 x2 hx2r
          have l2 := ho2 x1 hx1r
          rw [hmt1] at l1
          rw [hmt2] at l2
          omega
        · obtain ⟨g1, hfi1, hmem1⟩ :=
            reachable_incomplete_origin hones h1 P x1 r1' hf1 hP hcl
          obtain ⟨g2, hfi2, hmem2⟩ :=
            reachable_incomplete_origin hones h2 P x2 r2' hf2 hP hcl
          have hg : g2 = g1 := by
            rw [hfi1] at hfi2
            exact (Option.some.inj hfi2).symm
          rw [hg] at hmem2
          obtain ⟨hglen, hgval⟩ := findIdx?_some_spec hfi1
          have hgno : g1 < ctx.numOrbits := by
            rw [← fullMuls_length ctx P]
            exact hglen
          have hSP : (P.map (fun q => contrib ctx q g1)).sum = 1 := by
            rw [fullMuls_getD, if_pos hgno] at hgval
            exact hgval
          have hcf1 : classify (fullMuls ctx it1.facets) = 0 := by
            rw [← reachable_classify_full hones h1]
            exact hc1
          have hlen1 : g1 < (fullMuls ctx it1.facets).length := by
            rw [fullMuls_length]
            exact hgno
          have hent1 := classify_zero_getD hcf1 hlen1
          rw [fullMuls_getD, if_pos hgno, hf1, List.map_append,
            List.sum_append, List.map_cons, List.sum_cons, hSP] at hent1
          have hcx1 : 1 ≤ contrib ctx x1 g1 := hcontrib g1 x1 hmem1
          have hcx2 : 1 ≤ contrib ctx x2 g1 := hcontrib g1 x2 hmem2
          have hr1z : (r1'.map (fun q => contrib ctx q g1)).sum = 0 := by
            obtain ⟨ha, _⟩ := hent1
            omega
          by_contra hne
          have hx2r : x2 ∈ r1' := by
            have hx2m : x2 ∈ x1 :: r1' :=
              hperm.mem_iff.mpr (List.mem_cons_self _ _)
            rcases List.mem_cons.mp hx2m with hh | hh
            · exact absurd hh.symm hne
            · exact hh
          have hz : contrib ctx x2 g1 = 0 :=
            List.sum_eq_zero_iff.mp hr1z (contrib ctx x2 g1)
              (List.mem_map_of_mem _ hx2r)
          omega
    rw [← hx] at hperm ⊢
    have hperm' := hperm.cons_inv
    have htail := ih r2' (P ++ [x1]) it1 it2 h1 h2 hc1 hc2
      (by rw [hf1, List.append_assoc, List.singleton_append])
      (by rw [hf2, ← hx, List.append_assoc, List.singleton_append])
      hperm'
    rw [htail]

/-- Two valid reachable combinations with permutation-equal facet lists are
the same queue entry (hence the same facet list, in the same order). -/
theorem accepted_perm_unique {ctx : SearchCtx} (hones : OnesSorted ctx)
    (hcontrib : ∀ g : Nat, ∀ p ∈ ctx.ones.getD g [], 1 ≤ contrib ctx p g)
    {it1 it2 : Item} (h1 : Reachable ctx it1) (h2 : Reachable ctx it2)
    (hc1 : classify (stepMuls ctx it1) = 0)
    (hc2 : classify (stepMuls ctx it2) = 0)
    (hperm : it1.facets.Perm it2.facets) : it1 = it2 := by
  have hfeq := accepted_perm_unique_aux hones hcontrib it1.facets it2.facets []
    it1 it2 h1 h2 hc1 hc2 (by rw [List.nil_append]) (by rw [List.nil_append])
    hperm
  exact reachable_facets_inj hones h1 h2 hfeq

theorem countP_disjoint_add {α : Type} (p q r : α → Bool) :
    ∀ l : List α, (∀ a ∈ l, ¬(p a = true ∧ q a = true)) →
      (∀ a ∈ l, p a = true → r a = true) → (∀ a ∈ l, q a = true → r a = true) →
      l.countP p + l.countP q ≤ l.countP r := by
  intro l
  induction l with
  | nil => intro _ _ _; simp
  | cons a l ih =>
    intro hd hp hq
    rw [List.countP_cons, List.countP_cons, List.countP_cons]
    have hih := ih (fun b hb => hd b (List.mem_cons_of_mem a hb))
      (fun b hb => hp b (List.mem_cons_of_mem a hb))
      (fun b hb => hq b (List.mem_cons_of_mem a hb))
    by_cases hpa : p a = true
    · have hra := hp a (List.mem_cons_self a l) hpa
      have hqa : ¬ q a = true := fun hqa => hd a (List.mem_cons_self a l) ⟨hpa, hqa⟩
      rw [if_pos hpa, if_pos hra, if_neg hqa]
      omega
    · rw [if_neg hpa]
      by_cases hqa : q a = true
      · have hra := hq a (List.mem_cons_self a l) hqa
        rw [if_pos hqa, if_pos hra]
        omega
      · rw [if_neg hqa]
        by_cases hra : r a = true
        · rw [if_pos hra]
          omega
        · rw [if_neg hra]
          omega

/-- `Z` is a still-viable strict ancestor of `Y`: its facet list is a proper
prefix of `Y`'s, and no prefix of `Y`'s facets from `Z` on (exclusive of `Y`
itself) is classified exotic, so the trace from `Z` to `Y` can still be
walked by the search. -/
def ViableAnc (ctx : SearchCtx) (Z Y : Item) : Prop :=
  Z.facets <+: Y.facets ∧ Z.facets.length < Y.facets.length ∧
  ∀ k : Nat, k < Y.facets.length → Z.facets.length ≤ k →
    classify (stepMuls ctx (itemAt ctx (Y.facets.take k))) ≠ 1

instance (ctx : SearchCtx) (Z Y : Item) : Decidable (ViableAnc ctx Z Y) := by
  unfold ViableAnc
  exact inferInstance

/-- The step emits an accepted facet list exactly on the valid
classification, and the emitted list is the compound-split facet list. -/
theorem step_emits_iff (ctx : SearchCtx) (it : Item) :
    (facetingStep ctx it).1 =
      if classify (stepMuls ctx it) = 0 then some (ctx.split it.facets)
      else none := by
  rw [facetingStep]
  match hc : classify (stepMuls ctx it) with
  | 0 => rw [if_pos rfl]
  | 1 => rfl
  | n + 2 => rfl

theorem validExts_nodup (ctx : SearchCtx) (it : Item) (m : List Nat) :
    (validExts ctx it m).Nodup := by
  rw [validExts, List.nodup_flatten]
  constructor
  · intro l hl
    obtain ⟨hp, _, rfl⟩ := List.mem_map.mp hl
    refine List.Nodup.map ?_ (List.nodup_range _)
    intro f1 f2 hf
    simp only [Item.mk.injEq] at hf
    have h2 := List.append_inj' hf.1 rfl
    injection h2.2 with ha _
    rw [Prod.mk.injEq] at ha
    exact ha.2
  · refine List.pairwise_map.mpr ?_
    have hA : (((List.range ctx.ridgeIdxs.length).drop (it.minHp + 1)).filter
        (fun hp => !(usedHps it.facets).contains hp)).Nodup :=
      List.Nodup.sublist ((List.filter_sublist _).trans (List.drop_sublist _ _))
        (List.nodup_range _)
    refine hA.imp ?_
    intro hp1 hp2 hne Z hZ1 hZ2
    obtain ⟨f1, _, hZe1⟩ := List.mem_map.mp hZ1
    obtain ⟨f2, _, hZe2⟩ := List.mem_map.mp hZ2
    rw [← hZe2] at hZe1
    simp only [Item.mk.injEq] at hZe1
    exact hne hZe1.2.1

theorem initQueue_nodup (ctx : SearchCtx) : (initQueue ctx).Nodup := by
  rw [initQueue, List.nodup_flatten]
  constructor
  · intro l hl
    obtain ⟨hp, _, rfl⟩ := List.mem_map.mp hl
    refine List.Nodup.map ?_ (List.nodup_range _)
    intro f1 f2 hf
    simp only [Item.mk.injEq] at hf
    injection hf.1 with ha _
    rw [Prod.mk.injEq] at ha
    exact ha.2
  · refine List.pairwise_map.mpr ?_
    refine (List.nodup_range _).imp ?_
    intro hp1 hp2 hne Z hZ1 hZ2
    obtain ⟨f1, _, hZe1⟩ := List.mem_map.mp hZ1
    obtain ⟨f2, _, hZe2⟩ := List.mem_map.mp hZ2
    rw [← hZe2] at hZe1
    simp only [Item.mk.injEq] at hZe1
    exact hne hZe1.2.1

/-- A combination pushed twice by a single pop is exotic: only the
incomplete branch can push duplicates (via a duplicated `ones` entry), and a
duplicated `ones` entry contributes at least 2 to an orbit already at 1. -/
theorem pushes_dup_exotic {ctx : SearchCtx} (hones : OnesSorted ctx)
    (honesCount : ∀ (g : Nat) (p : Pair),
      (ctx.ones.getD g []).count p ≤ contrib ctx p g)
    {X Z : Item} (hX : Reachable ctx X)
    (h2 : 2 ≤ (facetingStep ctx X).2.count Z) :
    classify (stepMuls ctx Z) = 1 := by
  rw [facetingStep] at h2
  match hc : classify (stepMuls ctx X) with
  | 0 =>
    rw [hc] at h2
    simp only at h2
    exfalso
    by_cases hn : nobleOk ctx X = true
    · rw [if_pos hn] at h2
      by_cases hic : ctx.includeCompounds = true
      · rw [if_pos hic] at h2
        have := List.nodup_iff_count_le_one.mp
          (validExts_nodup ctx X (stepMuls ctx X)) Z
        omega
      · rw [if_neg hic] at h2
        simp at h2
    · rw [if_neg hn] at h2
      simp at h2
  | 1 =>
    rw [hc] at h2
    simp at h2
  | n + 2 =>
    rw [hc] at h2
    simp only at h2
    by_cases hn : nobleOk ctx X = true
    swap
    · rw [if_neg hn] at h2
      simp at h2
    rw [if_pos hn, incompleteExts] at h2
    match hfi : (stepMuls ctx X).findIdx? (fun r => r == 1) with
    | none =>
      rw [hfi] at h2
      simp at h2
    | some g =>
      rw [hfi] at h2
      simp only at h2
      set L := ((ctx.ones.getD g []).drop
          (binary (ctx.ones.getD g []) X.minHp)).filter
        (fun p => !(usedHps X.facets).contains p.1) with hL
      have hZm : Z ∈ L.map
          (fun p => Item.mk (X.facets ++ [p]) X.minHp (stepMuls ctx X)) := by
        rw [← List.count_pos_iff]
        omega
      obtain ⟨p0, hp0, hZe⟩ := List.mem_map.mp hZm
      have hcnt : (L.map fun p =>
          Item.mk (X.facets ++ [p]) X.minHp (stepMuls ctx X)).count Z
          = L.count p0 := by
        rw [List.count, List.countP_map, List.count]
        refine List.countP_congr ?_
        intro p hp
        simp only [Function.comp]
        rw [← hZe]
        by_cases hpe : p = p0
        · subst hpe
          simp
        · have hne : Item.mk (X.facets ++ [p]) X.minHp (stepMuls ctx X) ≠
              Item.mk (X.facets ++ [p0]) X.minHp (stepMuls ctx X) := by
            intro hcon
            simp only [Item.mk.injEq] at hcon
            have hap := List.append_inj' hcon.1 rfl
            injection hap.2 with ha _
            exact hpe ha
          rw [beq_eq_false_iff_ne.mpr hne, beq_eq_false_iff_ne.mpr hpe]
      rw [hcnt] at h2
      have hsub : L.Sublist (ctx.ones.getD g []) :=
        (List.filter_sublist _).trans (List.drop_sublist _ _)
      have hcontr : 2 ≤ contrib ctx p0 g :=
        le_trans (le_trans h2 (hsub.count_le p0)) (honesCount g p0)
      have hgval := findIdx?_some_spec hfi
      have hful : stepMuls ctx X = fullMuls ctx X.facets :=
        reachable_stepMuls_eq_full hones hX (by omega)
      have hZfac : Z.facets = X.facets ++ [p0] := by rw [← hZe]
      have hZcache : Z.cache = stepMuls ctx X := by rw [← hZe]
      apply classify_one_of_full_gt
      refine ⟨g, ?_⟩
      have hlastZ : lastFacet Z = p0 := by
        rw [lastFacet, hZfac, List.getLastD_concat]
      rw [stepMulsFull, lastRidgeIdxs, hlastZ, hZcache, addMulsFull_getD,
        if_pos hgval.1, hgval.2]
      change 1 + contrib ctx p0 g > 2
      omega

theorem step_isSome_iff (ctx : SearchCtx) (it : Item) :
    (facetingStep ctx it).1.isSome = true ↔ classify (stepMuls ctx it) = 0 := by
  rw [step_emits_iff]
  by_cases h0 : classify (stepMuls ctx it) = 0
  · simp [h0]
  · simp [h0]

/-- A single pop pushes any given non-exotic combination at most once,
counting both identical copies and still-viable strict ancestors of it. -/
theorem step_children_once {ctx : SearchCtx} (hones : OnesSorted ctx)
    (honesCount : ∀ (g : Nat) (p : Pair),
      (ctx.ones.getD g []).count p ≤ contrib ctx p g)
    {X Y : Item} (hX : Reachable ctx X) (hY : Reachable ctx Y)
    (hY1 : classify (stepMuls ctx Y) ≠ 1) :
    (facetingStep ctx X).2.count Y +
      (facetingStep ctx X).2.countP (fun Z => decide (ViableAnc ctx Z Y)) ≤ 1 := by
  have hfacT : ∀ Z ∈ (facetingStep ctx X).2, (Z = Y ∨ ViableAnc ctx Z Y) →
      Z.facets = Y.facets.take (X.facets.length + 1) := by
    intro Z hZ hor
    obtain ⟨_, p, hfac, _⟩ := step_shape hones hZ
    have hpre : Z.facets <+: Y.facets := by
      rcases hor with rfl | hanc
      · exact List.prefix_refl _
      · exact hanc.1
    have heq := List.prefix_iff_eq_take.mp hpre
    have hlenZ : Z.facets.length = X.facets.length + 1 := by
      rw [hfac]
      simp
    rw [heq, hlenZ]
  have hZW : ∀ Z ∈ (facetingStep ctx X).2, (Z = Y ∨ ViableAnc ctx Z Y) →
      Z = itemAt ctx (Y.facets.take (X.facets.length + 1)) := by
    intro Z hZ hor
    rw [reachable_eq_itemAt hones (Reachable.ext X Z hX hZ), hfacT Z hZ hor]
  have hsum : (facetingStep ctx X).2.count Y +
      (facetingStep ctx X).2.countP (fun Z => decide (ViableAnc ctx Z Y)) ≤
      (facetingStep ctx X).2.countP
        (fun Z => Z == itemAt ctx (Y.facets.take (X.facets.length + 1))) := by
    rw [List.count]
    refine countP_disjoint_add _ _ _ _ ?_ ?_ ?_
    · intro Z hZ hcon
      obtain ⟨h1, h2⟩ := hcon
      have hZY : Z = Y := by simpa using h1
      have hanc := of_decide_eq_true h2
      rw [hZY] at hanc
      exact absurd hanc.2.1 (lt_irrefl _)
    · intro Z hZ h1
      have hZY : Z = Y := by simpa using h1
      have := hZW Z hZ (Or.inl hZY)
      simp [this]
    · intro Z hZ h2
      have := hZW Z hZ (Or.inr (of_decide_eq_true h2))
      simp [this]
  have hcc : (facetingStep ctx X).2.countP
      (fun Z => Z == itemAt ctx (Y.facets.take (X.facets.length + 1))) =
      (facetingStep ctx X).2.count
        (itemAt ctx (Y.facets.take (X.facets.length + 1))) := rfl
  by_cases hW2 :
      (facetingStep ctx X).2.count
        (itemAt ctx (Y.facets.take (X.facets.length + 1))) ≤ 1
  · omega
  · have hWex : classify (stepMuls ctx
        (itemAt ctx (Y.facets.take (X.facets.length + 1)))) = 1 :=
      pushes_dup_exotic hones honesCount hX (by omega)
    have hzero : ∀ Z ∈ (facetingStep ctx X).2,
        ¬(Z = Y ∨ ViableAnc ctx Z Y) := by
      intro Z hZ hor
      have hZW' := hZW Z hZ hor
      rcases hor with rfl | hanc
      · rw [hZW'] at hY1
        exact hY1 hWex
      · obtain ⟨_, p, hfac, _⟩ := step_shape hones hZ
        have hlenZ : Z.facets.length = X.facets.length + 1 := by
          rw [hfac]
          simp
        have hvk := hanc.2.2 Z.facets.length hanc.2.1 (Nat.le_refl _)
        rw [hlenZ] at hvk
        exact hvk hWex
    have hc0 : (facetingStep ctx X).2.count Y = 0 := by
      rw [List.count_eq_zero]
      intro hm
      exact hzero Y hm (Or.inl rfl)
    have hcp0 : (facetingStep ctx X).2.countP
        (fun Z => decide (ViableAnc ctx Z Y)) = 0 := by
      rw [List.countP_eq_zero]
      intro Z hZ hd
      exact hzero Z hZ (Or.inr (of_decide_eq_true hd))
    omega

/-- If the popped combination is neither `Y` nor a viable ancestor of `Y`,
its pushes contain neither `Y` nor viable ancestors of `Y`. -/
theorem step_children_zero_of_far {ctx : SearchCtx} (hones : OnesSorted ctx)
    {X Y : Item} (hX : Reachable ctx X) (hnanc : ¬ ViableAnc ctx X Y)
    (hXY : X ≠ Y) :
    (facetingStep ctx X).2.count Y = 0 ∧
    (facetingStep ctx X).2.countP (fun Z => decide (ViableAnc ctx Z Y)) = 0 := by
  constructor
  · rw [List.count_eq_zero]
    intro hmem
    obtain ⟨hne1, p, hfac, _⟩ := step_shape hones hmem
    apply hnanc
    refine ⟨by rw [hfac]; exact List.prefix_append _ _, by rw [hfac]; simp, ?_⟩
    intro k hk1 hk2
    have hlen : Y.facets.length = X.facets.length + 1 := by
      rw [hfac]
      simp
    have hkx : k = X.facets.length := by omega
    subst hkx
    have htake : Y.facets.take X.facets.length = X.facets := by
      rw [hfac, List.take_left]
    rw [htake, ← reachable_eq_itemAt hones hX]
    exact hne1
  · rw [List.countP_eq_zero]
    intro Z hZ hdec
    have hancZ := of_decide_eq_true hdec
    obtain ⟨hne1, p, hfac, _⟩ := step_shape hones hZ
    apply hnanc
    have hXpreZ : X.facets <+: Z.facets := by
      rw [hfac]
      exact List.prefix_append _ _
    have hXpreY : X.facets <+: Y.facets := hXpreZ.trans hancZ.1
    have h2 : Z.facets.length = X.facets.length + 1 := by
      rw [hfac]
      simp
    refine ⟨hXpreY, by have := hancZ.2.1; omega, ?_⟩
    intro k hk1 hk2
    by_cases hke : k = X.facets.length
    · subst hke
      have htake : Y.facets.take X.facets.length = X.facets :=
        (List.prefix_iff_eq_take.mp hXpreY).symm
      rw [htake, ← reachable_eq_itemAt hones hX]
      exact hne1
    · exact hancZ.2.2 k hk1 (by omega)

/-- A pop never pushes a copy of itself, nor a viable ancestor of itself. -/
theorem step_children_zero_of_self {ctx : SearchCtx} (hones : OnesSorted ctx)
    {X : Item} :
    (facetingStep ctx X).2.count X = 0 ∧
    (facetingStep ctx X).2.countP (fun Z => decide (ViableAnc ctx Z X)) = 0 := by
  constructor
  · rw [List.count_eq_zero]
    intro hmem
    obtain ⟨_, p, hfac, _⟩ := step_shape hones hmem
    have := congrArg List.length hfac
    simp at this
  · rw [List.countP_eq_zero]
    intro Z hZ hdec
    have hanc := of_decide_eq_true hdec
    obtain ⟨_, p, hfac, _⟩ := step_shape hones hZ
    have h1 := hanc.2.1
    have h2 := congrArg List.length hfac
    simp at h2
    omega

/-- The queue/accepted-list invariant of the search loop: all entries are
reachable, accepted entries are valid, and each non-exotic reachable
combination is represented at most once across the queue, the accepted list,
and the queue's still-viable strict ancestors of it. -/
def SearchInv (ctx : SearchCtx) (queue acc : List Item) : Prop :=
  (∀ Z ∈ queue, Reachable ctx Z) ∧
  (∀ Z ∈ acc, Reachable ctx Z ∧ classify (stepMuls ctx Z) = 0) ∧
  (∀ Y : Item, Reachable ctx Y → classify (stepMuls ctx Y) ≠ 1 →
    queue.count Y + acc.count Y +
      queue.countP (fun Z => decide (ViableAnc ctx Z Y)) ≤ 1)

/-- One pop of the search loop preserves the invariant. -/
theorem searchInv_step {ctx : SearchCtx} (hones : OnesSorted ctx)
    (honesCount : ∀ (g : Nat) (p : Pair),
      (ctx.ones.getD g []).count p ≤ contrib ctx p g)
    {X : Item} {rest acc : List Item}
    (hinv : SearchInv ctx (X :: rest) acc) :
    SearchInv ctx ((facetingStep ctx X).2.reverse ++ rest)
      (if (facetingStep ctx X).1.isSome then acc ++ [X] else acc) := by
  obtain ⟨hq, ha, hcnt⟩ := hinv
  have hXr : Reachable ctx X := hq X (List.mem_cons_self _ _)
  refine ⟨?_, ?_, ?_⟩
  · intro Z hZ
    rcases List.mem_append.mp hZ with h1 | h2
    · exact Reachable.ext X Z hXr (List.mem_reverse.mp h1)
    · exact hq Z (List.mem_cons_of_mem _ h2)
  · intro Z hZ
    by_cases hsome : (facetingStep ctx X).1.isSome = true
    · rw [if_pos hsome] at hZ
      rcases List.mem_append.mp hZ with h1 | h2
      · exact ha Z h1
      · have hZX : Z = X := by simpa using h2
        subst hZX
        exact ⟨hXr, (step_isSome_iff ctx Z).mp hsome⟩
    · rw [if_neg hsome] at hZ
      exact ha Z hZ
  · intro Y hYr hY1
    have hold := hcnt Y hYr hY1
    rw [List.count_append, List.count_reverse, List.countP_append,
      List.countP_reverse]
    by_cases hXY : X = Y
    · subst hXY
      rw [List.count_cons_self] at hold
      have hancselfF : decide (ViableAnc ctx X X) = false := by
        apply decide_eq_false
        intro hanc
        exact absurd hanc.2.1 (lt_irrefl _)
      have hsplitP : List.countP (fun Z => decide (ViableAnc ctx Z X))
          (X :: rest) = List.countP (fun Z => decide (ViableAnc ctx Z X)) rest := by
        rw [List.countP_cons]
        simp [hancselfF]
      rw [hsplitP] at hold
      have h3 := step_children_zero_of_self (X := X) hones
      have haccb : (if (facetingStep ctx X).1.isSome then acc ++ [X]
          else acc).count X ≤ acc.count X + 1 := by
        by_cases hsome : (facetingStep ctx X).1.isSome = true
        · rw [if_pos hsome, List.count_append]
          have hone : List.count X [X] ≤ 1 := by simp
          omega
        · rw [if_neg hsome]
          omega
      omega
    · have hacc' : (if (facetingStep ctx X).1.isSome then acc ++ [X]
          else acc).count Y = acc.count Y := by
        by_cases hsome : (facetingStep ctx X).1.isSome = true
        · rw [if_pos hsome, List.count_append]
          have hz : List.count Y [X] = 0 := by
            rw [List.count_singleton, beq_eq_false_iff_ne.mpr hXY]
            simp
          omega
        · rw [if_neg hsome]
      rw [hacc']
      rw [List.count_cons_of_ne (Ne.symm hXY)] at hold
      by_cases hanc : ViableAnc ctx X Y
      · have hsplitP : List.countP (fun Z => decide (ViableAnc ctx Z Y))
            (X :: rest) =
            List.countP (fun Z => decide (ViableAnc ctx Z Y)) rest + 1 := by
          rw [List.countP_cons]
          simp [decide_eq_true hanc]
        rw [hsplitP] at hold
        have h1 := step_children_once hones honesCount hXr hYr hY1
        omega
      · have hsplitP : List.countP (fun Z => decide (ViableAnc ctx Z Y))
            (X :: rest) =
            List.countP (fun Z => decide (ViableAnc ctx Z Y)) rest := by
          rw [List.countP_cons]
          simp [decide_eq_false hanc]
        rw [hsplitP] at hold
        have h2 := step_children_zero_of_far hones hXr hanc hXY
        omega

/-- The invariant holds at the start of the search. -/
theorem searchInv_init {ctx : SearchCtx} (hones : OnesSorted ctx) :
    SearchInv ctx (initQueue ctx).reverse [] := by
  refine ⟨?_, ?_, ?_⟩
  · intro Z hZ
    obtain ⟨hp, f, h1, h2, rfl⟩ := mem_initQueue (List.mem_reverse.mp hZ)
    exact Reachable.seed hp f h1 h2
  · intro Z hZ
    simp at hZ
  · intro Y hYr hY1
    rw [List.count_nil, List.count_reverse, List.countP_reverse]
    have hWd : ∀ Z ∈ initQueue ctx,
        ((Z == Y) = true ∨ decide (ViableAnc ctx Z Y) = true) →
        Z = itemAt ctx (Y.facets.take 1) := by
      intro Z hZ hor
      obtain ⟨hp, f, hb1, hb2, rfl⟩ := mem_initQueue hZ
      have hres : Reachable ctx
          ⟨[(hp, f)], hp, List.replicate ctx.numOrbits 0⟩ :=
        Reachable.seed hp f hb1 hb2
      rcases hor with h1 | h2
      · have hZY : Item.mk [(hp, f)] hp (List.replicate ctx.numOrbits 0) = Y := by
          simpa using h1
        rw [reachable_eq_itemAt hones hres]
        congr 1
        rw [← hZY]
        simp
      · have hanc := of_decide_eq_true h2
        rw [reachable_eq_itemAt hones hres]
        congr 1
        have := List.prefix_iff_eq_take.mp hanc.1
        simpa using this
    have hsum : (initQueue ctx).count Y +
        (initQueue ctx).countP (fun Z => decide (ViableAnc ctx Z Y)) ≤
        (initQueue ctx).countP (fun Z => Z == itemAt ctx (Y.facets.take 1)) := by
      rw [List.count]
      refine countP_disjoint_add _ _ _ _ ?_ ?_ ?_
      · intro Z hZ hcon
        obtain ⟨h1, h2⟩ := hcon
        have hZY : Z = Y := by simpa using h1
        have hanc := of_decide_eq_true h2
        rw [hZY] at hanc
        exact absurd hanc.2.1 (lt_irrefl _)
      · intro Z hZ h1
        have := hWd Z hZ (Or.inl h1)
        simp [this]
      · intro Z hZ h2
        have := hWd Z hZ (Or.inr h2)
        simp [this]
    have hcc : (initQueue ctx).countP
        (fun Z => Z == itemAt ctx (Y.facets.take 1)) =
        (initQueue ctx).count (itemAt ctx (Y.facets.take 1)) := rfl
    have hle := List.nodup_iff_count_le_one.mp (initQueue_nodup ctx)
      (itemAt ctx (Y.facets.take 1))
    omega

theorem runSearchItems_nil_fst (ctx : SearchCtx) (fuel : Nat)
    (acc : List Item) : (runSearchItems ctx fuel [] acc).1 = acc := by
  rw [runSearchItems_nil]

theorem runSearchItems_zero_cons_fst (ctx : SearchCtx) (x : Item)
    (rest acc : List Item) : (runSearchItems ctx 0 (x :: rest) acc).1 = acc :=
  rfl

/-- Soundness of the whole run with respect to the invariant: the final
accepted list holds only valid reachable combinations, each at most once. -/
theorem runSearch_acc_prop {ctx : SearchCtx} (hones : OnesSorted ctx)
    (honesCount : ∀ (g : Nat) (p : Pair),
      (ctx.ones.getD g []).count p ≤ contrib ctx p g) :
    ∀ (fuel : Nat) (queue acc : List Item), SearchInv ctx queue acc →
      (∀ Z ∈ (runSearchItems ctx fuel queue acc).1,
        Reachable ctx Z ∧ classify (stepMuls ctx Z) = 0) ∧
      (∀ Y : Item, Reachable ctx Y → classify (stepMuls ctx Y) ≠ 1 →
        ((runSearchItems ctx fuel queue acc).1).count Y ≤ 1) := by
  intro fuel
  induction fuel with
  | zero =>
    intro queue acc hinv
    cases queue with
    | nil =>
      rw [runSearchItems_nil_fst]
      exact ⟨hinv.2.1, fun Y hYr hY1 => by have := hinv.2.2 Y hYr hY1; omega⟩
    | cons x rest =>
      rw [runSearchItems_zero_cons_fst]
      exact ⟨hinv.2.1, fun Y hYr hY1 => by have := hinv.2.2 Y hYr hY1; omega⟩
  | succ n ih =>
    intro queue acc hinv
    cases queue with
    | nil =>
      rw [runSearchItems_nil_fst]
      exact ⟨hinv.2.1, fun Y hYr hY1 => by have := hinv.2.2 Y hYr hY1; omega⟩
    | cons x rest =>
      rw [runSearchItems_cons]
      exact ih _ _ (searchInv_step hones honesCount ⟨hinv.1, hinv.2.1, hinv.2.2⟩)

/-- Claim C8: under the properties the source's table construction
guarantees — `ones` lists sorted by hyperplane, each `ones[g]` listing a
facet at most as often as its multiplicity contribution to orbit `g`, and
compound splitting injective up to permutation on hyperplane-distinct facet
lists — no two accepted combinations emitted by the facet-combination search
differ only by a permutation of their `(hyperplane, facet)` pairs, and the
emitted collection of compound-split facet lists contains no duplicate list
(so it stays duplicate-free after the final sort). -/
theorem c8_no_duplicate_facetings (ctx : SearchCtx) (hones : OnesSorted ctx)
    (honesCount : ∀ (g : Nat) (p : Pair),
      (ctx.ones.getD g []).count p ≤ contrib ctx p g)
    (hsplit : ∀ l1 l2 : List Pair, (l1.map Prod.fst).Nodup →
      (l2.map Prod.fst).Nodup → ctx.split l1 = ctx.split l2 → l1.Perm l2)
    (fuel : Nat) :
    ((runSearchItems ctx fuel (initQueue ctx).reverse []).1).Pairwise
      (fun it1 it2 => ¬ it1.facets.Perm it2.facets) ∧
    (outputFacets ctx fuel).Nodup := by
  have hcontrib : ∀ g : Nat, ∀ p ∈ ctx.ones.getD g [], 1 ≤ contrib ctx p g := by
    intro g p hp
    exact le_trans (List.count_pos_iff.mpr hp) (honesCount g p)
  obtain ⟨hmem, hcount⟩ := runSearch_acc_prop hones honesCount fuel
    (initQueue ctx).reverse [] (searchInv_init hones)
  have hnd : ((runSearchItems ctx fuel (initQueue ctx).reverse []).1).Nodup := by
    rw [List.nodup_iff_count_le_one]
    intro Y
    by_cases hY : Y ∈ (runSearchItems ctx fuel (initQueue ctx).reverse []).1
    · obtain ⟨hr, hc⟩ := hmem Y hY
      exact hcount Y hr (by omega)
    · rw [List.count_eq_zero.mpr hY]
      omega
  have hpw : ((runSearchItems ctx fuel (initQueue ctx).reverse []).1).Pairwise
      (fun it1 it2 => ¬ it1.facets.Perm it2.facets) := by
    refine List.Pairwise.imp_of_mem ?_ hnd
    intro a b ha hb hne hperm
    obtain ⟨hra, hca⟩ := hmem a ha
    obtain ⟨hrb, hcb⟩ := hmem b hb
    exact hne (accepted_perm_unique hones hcontrib hra hrb hca hcb hperm)
  refine ⟨hpw, ?_⟩
  rw [outputFacets]
  have hpw2 : ((runSearchItems ctx fuel (initQueue ctx).reverse []).1).Pairwise
      (fun it1 it2 => ctx.split it1.facets ≠ ctx.split it2.facets) := by
    refine List.Pairwise.imp_of_mem ?_ hpw
    intro a b ha hb hnp hse
    obtain ⟨hra, _⟩ := hmem a ha
    obtain ⟨hrb, _⟩ := hmem b hb
    exact hnp (hsplit a.facets b.facets (reachable_inv hones hra).2.2.2
      (reachable_inv hones hrb).2.2.2 hse)
  exact List.Pairwise.map _ (fun a b h => h) hpw2

theorem witnessCtx_ones_count :
    ∀ (g : Nat) (p : Pair),
      (witnessCtx.ones.getD g []).count p ≤ contrib witnessCtx p g := by
  intro g p
  match g with
  | 0 =>
    have hlist : witnessCtx.ones.getD 0 [] =
        [((0 : Nat), (0 : Nat)), (1, 0)] := rfl
    rw [hlist]
    by_cases hp1 : p = (0, 0)
    · subst hp1
      decide
    · by_cases hp2 : p = (1, 0)
      · subst hp2
        decide
      · have hz : List.count p [((0 : Nat), (0 : Nat)), (1, 0)] = 0 := by
          rw [List.count_eq_zero]
          intro hm
          rcases List.mem_cons.mp hm with h | h
          · exact hp1 h
          · exact hp2 (by simpa using h)
        rw [hz]
        exact Nat.zero_le _
  | g + 1 =>
    have hlist : witnessCtx.ones.getD (g + 1) [] = [] := rfl
    rw [hlist, List.count_nil]
    exact Nat.zero_le _

theorem witnessCtx_split_perm :
    ∀ l1 l2 : List Pair, (l1.map Prod.fst).Nodup → (l2.map Prod.fst).Nodup →
      witnessCtx.split l1 = witnessCtx.split l2 → l1.Perm l2 := by
  intro l1 l2 _ _ h
  have h' : l1 = l2 := h
  rw [h']

/-- Witness for C8 at the dyad-style context, with enough fuel to drain the
queue. -/
theorem c8_no_duplicate_facetings_witness :
    ((runSearchItems witnessCtx 5
      (initQueue witnessCtx).reverse []).1).Pairwise
      (fun it1 it2 => ¬ it1.facets.Perm it2.facets) ∧
    (outputFacets witnessCtx 5).Nodup :=
  c8_no_duplicate_facetings witnessCtx witnessCtx_ones_sorted
    witnessCtx_ones_count witnessCtx_split_perm 5

end Miratope
